import Mathlib

/-!
Verification development for the cooking-assistant repository.

The development shallowly embeds the core algorithms of the repository in
Lean 4:

* `ParagraphSentenceChunker.chunk` (src/utils/text-chunker/text-chunker.ts):
  boundary-aware text splitting with overlap.
* `ParentChildChunkingService` (src/services/chunking/parent-child-chunking.service.ts):
  two-level parent/child chunking.
* `MyCustomRetrieverService.retrieve`: grouping of vector matches by parent,
  best-child similarity, and ranking.
* `syncDocumentsCore` / `processFiles` (src/scripts/sync-docs.ts): the document
  sync engine, modelled as a pure function that also produces the trace of
  collaborator (store) calls it makes.

Text is modelled as `List Char`; JavaScript numbers are modelled as `ℤ` (the
size parameters are integral in every deployment: the configuration schema
coerces `childChunkSize` to an integer and the derived sizes are floors) and
`ℚ` for the similarity scores and configuration factors.
-/

namespace CookingAssistant

instance {ε α : Type} [DecidableEq ε] [DecidableEq α] : DecidableEq (Except ε α) := fun x y =>
  match x, y with
  | .ok a, .ok b =>
    if h : a = b then .isTrue (by rw [h]) else .isFalse (by simp [h])
  | .error a, .error b =>
    if h : a = b then .isTrue (by rw [h]) else .isFalse (by simp [h])
  | .ok _, .error _ => .isFalse (by simp)
  | .error _, .ok _ => .isFalse (by simp)

/-- Character class of JavaScript's `\s` (and of `String.prototype.trim`):
space, tab, LF, VT, FF, CR, NBSP, and the Unicode space separators used by
JS regular expressions. -/
def isJsWhitespace (c : Char) : Bool :=
  c = ' ' ∨ c = '\t' ∨ c = '\n' ∨ c = '\x0b' ∨ c = '\x0c' ∨ c = '\r' ∨
  c = ' ' ∨ c = ' ' ∨ (' ' ≤ c ∧ c ≤ ' ') ∨
  c = ' ' ∨ c = ' ' ∨ c = ' ' ∨ c = ' ' ∨
  c = '　' ∨ c = '﻿'

/-- ASCII uppercase letter, the `[A-Z]` class of the sentence-boundary
regular expression. -/
def isUpperAscii (c : Char) : Bool := 'A' ≤ c ∧ c ≤ 'Z'

/-- Sentence-ending punctuation, the `[.!?]` class. -/
def isSentenceEnd (c : Char) : Bool := c = '.' ∨ c = '!' ∨ c = '?'

/-- JavaScript `String.prototype.trim`: drop leading and trailing
whitespace. -/
def trimChars (l : List Char) : List Char :=
  ((l.dropWhile isJsWhitespace).reverse.dropWhile isJsWhitespace).reverse

/-- Scanner state for `splitParagraphs`: the pieces completed so far, the
piece being accumulated, and the length of the newline run currently being
read (a run of two or more newlines is a paragraph separator). -/
structure ParaScanState where
  pieces : List (List Char)
  current : List Char
  pending : ℕ
  deriving DecidableEq, Repr

/-- One character of the paragraph scan.  A newline is held as pending; any
other character either closes the piece (when the pending run has length at
least two, i.e. the regular expression `\n\n+` matched and its characters are
discarded) or flushes the pending newlines back into the piece. -/
def paraScanStep (st : ParaScanState) (c : Char) : ParaScanState :=
  if c = '\n' then { st with pending := st.pending + 1 }
  else if 2 ≤ st.pending then
    { pieces := st.pieces ++ [st.current], current := [c], pending := 0 }
  else
    { st with current := st.current ++ List.replicate st.pending '\n' ++ [c], pending := 0 }

/-- JavaScript `content.split(/\n\n+/)`: split at every maximal run of two or
more newline characters.  The separators themselves are discarded by `split`,
which is what makes exact reconstruction of the input impossible in
general. -/
def splitParagraphs (l : List Char) : List (List Char) :=
  let st := l.foldl paraScanStep ⟨[], [], 0⟩
  if 2 ≤ st.pending then st.pieces ++ [st.current, []]
  else st.pieces ++ [st.current ++ List.replicate st.pending '\n']

/-- Scanner state for `splitSentences`: the pieces completed so far, the
piece being accumulated, whether the last accumulated character was
sentence-ending punctuation, and the whitespace run currently pending after
such punctuation. -/
structure SentScanState where
  pieces : List (List Char)
  current : List Char
  afterPunct : Bool
  pendingWs : List Char
  deriving DecidableEq, Repr

/-- One character of the sentence scan, implementing the regular expression
`(?<=[.!?])\s+(?=[A-Z])`: whitespace directly after `[.!?]` is held pending;
an ASCII uppercase letter then closes the piece and discards the pending
whitespace (the `\s+` is consumed by the match), while any other character
flushes the pending whitespace back into the piece. -/
def sentScanStep (st : SentScanState) (c : Char) : SentScanState :=
  if st.pendingWs ≠ [] then
    if isJsWhitespace c then { st with pendingWs := st.pendingWs ++ [c] }
    else if isUpperAscii c then
      { pieces := st.pieces ++ [st.current], current := [c],
        afterPunct := isSentenceEnd c, pendingWs := [] }
    else
      { st with current := st.current ++ st.pendingWs ++ [c],
                afterPunct := isSentenceEnd c, pendingWs := [] }
  else if st.afterPunct ∧ isJsWhitespace c then
    { st with pendingWs := [c] }
  else
    { st with current := st.current ++ [c], afterPunct := isSentenceEnd c }

/-- JavaScript `paragraph.split(/(?<=[.!?])\s+(?=[A-Z])/)`: split after
sentence-ending punctuation followed by whitespace and an uppercase letter.
The whitespace run is consumed by the match and therefore discarded. -/
def splitSentences (l : List Char) : List (List Char) :=
  let st := l.foldl sentScanStep ⟨[], [], false, []⟩
  st.pieces ++ [st.current ++ st.pendingWs]

/-- One character of `hardSplitText`: append to the slice being built and
close it once it reaches `chunkSize` characters. -/
def hardSplitStep (chunkSize : ℕ) (st : List (List Char) × List Char) (c : Char) :
    List (List Char) × List Char :=
  if st.2.length + 1 = chunkSize then (st.1 ++ [st.2 ++ [c]], [])
  else (st.1, st.2 ++ [c])

/-- `ParagraphSentenceChunker.hardSplitText`: cut `text` into consecutive
slices of exactly `chunkSize` characters (plus a final remainder slice), as
the source's `text.slice(i, i + chunkSize)` loop does.  A zero `chunkSize`
would not terminate in the source and is excluded by the validation in
`chunk`; this function returns `[]` for it. -/
def hardSplitText (text : List Char) (chunkSize : ℕ) : List (List Char) :=
  if chunkSize = 0 then []
  else
    let st := text.foldl (hardSplitStep chunkSize) ([], [])
    if st.2 = [] then st.1 else st.1 ++ [st.2]

/-- JavaScript `previousChunk.slice(-k)` for `k ≥ 0`: the last `k` characters
(`slice(-0)` is `slice(0)`, the whole string). -/
def jsSliceFromEnd (l : List Char) (k : ℕ) : List Char :=
  if k = 0 then l else l.drop (l.length - k)

/-- One step of `ParagraphSentenceChunker.applyOverlapToChunks`: each chunk
after the first is prefixed with the trailing `min(overlap, previous.length)`
characters of the immediately preceding chunk. -/
def applyOverlapTail (overlap : ℕ) : List Char → List (List Char) → List (List Char)
  | _, [] => []
  | prev, c :: cs =>
    (jsSliceFromEnd prev (min overlap prev.length) ++ c) :: applyOverlapTail overlap c cs

/-- `ParagraphSentenceChunker.applyOverlapToChunks`. -/
def applyOverlapToChunks (chunks : List (List Char)) (overlap : ℕ) : List (List Char) :=
  match chunks with
  | [] => []
  | c0 :: rest => c0 :: applyOverlapTail overlap c0 rest

/-- One step of the greedy sentence accumulation loop in
`ParagraphSentenceChunker.splitLargeParagraph`.  State: chunks emitted so
far and the chunk currently being accumulated. -/
def sentenceStep (chunkSize : ℕ) (st : List (List Char) × List Char) (s : List Char) :
    List (List Char) × List Char :=
  let (chunks, current) := st
  if chunkSize < s.length then
    ((if current = [] then chunks else chunks ++ [current]) ++ hardSplitText s chunkSize, [])
  else
    let potential := current ++ s
    if potential.length ≤ chunkSize ∨ current = [] then (chunks, potential)
    else (chunks ++ [current], s)

/-- `ParagraphSentenceChunker.splitLargeParagraph`: split an oversized
paragraph at sentence boundaries, greedily accumulating sentences; a sentence
longer than `chunkSize` is hard-split. -/
def splitLargeParagraph (paragraph : List Char) (chunkSize : ℕ) : List (List Char) :=
  let sentences := splitSentences paragraph
  let sentences := if sentences = [] then [paragraph] else sentences
  let st := sentences.foldl (sentenceStep chunkSize) ([], [])
  let chunks := if st.2 = [] then st.1 else st.1 ++ [st.2]
  if chunks = [] then [paragraph] else chunks

/-- One step of the greedy paragraph accumulation loop in
`ParagraphSentenceChunker.splitIntoParagraphAwareChunks`. -/
def paragraphStep (chunkSize : ℕ) (st : List (List Char) × List Char) (p : List Char) :
    List (List Char) × List Char :=
  let (chunks, current) := st
  if current = [] ∧ chunkSize < p.length then
    (chunks ++ splitLargeParagraph p chunkSize, current)
  else
    let sep : List Char := if current = [] then [] else ['\n', '\n']
    let potential := current ++ sep ++ p
    if potential.length ≤ chunkSize ∨ current = [] then (chunks, potential)
    else if chunkSize < p.length then
      (chunks ++ [current] ++ splitLargeParagraph p chunkSize, [])
    else (chunks ++ [current], p)

/-- `ParagraphSentenceChunker.splitIntoParagraphAwareChunks`: split on
blank-line paragraph boundaries, greedily accumulate paragraphs, delegate
oversized paragraphs to sentence splitting, then apply overlap. -/
def splitIntoParagraphAwareChunks (content : List Char) (chunkSize chunkOverlap : ℕ) :
    List (List Char) :=
  let paragraphs := (splitParagraphs content).filter (fun p => 0 < (trimChars p).length)
  let st := paragraphs.foldl (paragraphStep chunkSize) ([], [])
  let chunks := if st.2 = [] then st.1 else st.1 ++ [st.2]
  if 0 < chunkOverlap ∧ 1 < chunks.length then applyOverlapToChunks chunks chunkOverlap
  else chunks

/-- The body of `ParagraphSentenceChunker.chunk` after parameter validation:
trim, return `[]` for empty input, a single chunk for short input, and the
paragraph-aware splitting otherwise. -/
def chunkCore (content : List Char) (chunkSize chunkOverlap : ℕ) : List (List Char) :=
  let trimmed := trimChars content
  if trimmed.length = 0 then []
  else if trimmed.length ≤ chunkSize then [trimmed]
  else splitIntoParagraphAwareChunks trimmed chunkSize chunkOverlap

/-- `ParagraphSentenceChunker.chunk`: validate the size parameters (throwing
a configuration error on violation) and split. -/
def ParagraphSentenceChunker.chunk (content : List Char) (chunkSize chunkOverlap : ℤ) :
    Except String (List (List Char)) :=
  if chunkSize ≤ 0 then .error "Chunk size must be greater than 0"
  else if chunkSize ≤ chunkOverlap then .error "Chunk overlap must be less than chunk size"
  else if chunkOverlap < 0 then .error "Chunk overlap must be non-negative"
  else .ok (chunkCore content chunkSize.toNat chunkOverlap.toNat)

/-- Strip the known overlap from the tail chunks and concatenate: chunk `i`
of the output (for `i > 0`) drops `min(overlap, length of pre-overlap chunk
i-1)` characters from its front, the exact amount `applyOverlapToChunks`
prepended.  First argument: the pre-overlap chunk sequence (shifted so that
its head is the predecessor of the first tail chunk). -/
def stripTailJoin (overlap : ℕ) : List (List Char) → List (List Char) → List Char
  | prevPre :: preRest, c :: cs =>
    c.drop (min overlap prevPre.length) ++ stripTailJoin overlap preRest cs
  | _, _ => []

/-- Concatenation of the splitter's output with the known overlap length
stripped from the prefix of every chunk after the first (`pre` is the
pre-overlap chunk sequence, whose lengths determine the stripped
amounts). -/
def stripOverlapAndJoin (overlap : ℕ) (pre out : List (List Char)) : List Char :=
  match out with
  | [] => []
  | c0 :: rest => c0 ++ stripTailJoin overlap pre rest

theorem dropWhile_eq_self_of_false {p : Char → Bool} {l : List Char}
    (h : ∀ c ∈ l, p c = false) : l.dropWhile p = l := by
  cases l with
  | nil => rfl
  | cons c cs =>
    rw [List.dropWhile_cons, if_neg]
    simp [h c (by simp)]

theorem trimChars_eq_self {l : List Char} (h : ∀ c ∈ l, isJsWhitespace c = false) :
    trimChars l = l := by
  unfold trimChars
  rw [dropWhile_eq_self_of_false h, dropWhile_eq_self_of_false (fun c hc => h c (by simpa using hc)),
    List.reverse_reverse]

theorem trimChars_length_le (l : List Char) : (trimChars l).length ≤ l.length := by
  unfold trimChars
  calc ((l.dropWhile isJsWhitespace).reverse.dropWhile isJsWhitespace).reverse.length
      = ((l.dropWhile isJsWhitespace).reverse.dropWhile isJsWhitespace).length := by
        rw [List.length_reverse]
    _ ≤ (l.dropWhile isJsWhitespace).reverse.length := (List.dropWhile_sublist _).length_le
    _ = (l.dropWhile isJsWhitespace).length := by rw [List.length_reverse]
    _ ≤ l.length := (List.dropWhile_sublist _).length_le

theorem foldl_paraScanStep_no_newline {l : List Char} (hnl : '\n' ∉ l) :
    ∀ pieces current,
      l.foldl paraScanStep ⟨pieces, current, 0⟩ = ⟨pieces, current ++ l, 0⟩ := by
  induction l with
  | nil => intro pieces current; simp
  | cons c rest ih =>
    intro pieces current
    have hc : ¬(c = '\n') := fun h => hnl (h ▸ List.mem_cons_self c rest)
    have hrest : '\n' ∉ rest := fun h => hnl (List.mem_cons_of_mem c h)
    rw [List.foldl_cons]
    show List.foldl paraScanStep (paraScanStep ⟨pieces, current, 0⟩ c) rest = _
    rw [show paraScanStep ⟨pieces, current, 0⟩ c =
        ⟨pieces, current ++ [c], 0⟩ by simp [paraScanStep, hc]]
    rw [ih hrest]
    simp

theorem splitParagraphs_no_newline {l : List Char} (hnl : '\n' ∉ l) :
    splitParagraphs l = [l] := by
  unfold splitParagraphs
  rw [foldl_paraScanStep_no_newline hnl]
  simp

theorem foldl_sentScanStep_no_ws {l : List Char} (hws : ∀ c ∈ l, isJsWhitespace c = false) :
    ∀ pieces current ap,
      ∃ ap', l.foldl sentScanStep ⟨pieces, current, ap, []⟩ = ⟨pieces, current ++ l, ap', []⟩ := by
  induction l with
  | nil => intro pieces current ap; exact ⟨ap, by simp⟩
  | cons c rest ih =>
    intro pieces current ap
    have hc : isJsWhitespace c = false := hws c (by simp)
    have hrest : ∀ x ∈ rest, isJsWhitespace x = false :=
      fun x hx => hws x (List.mem_cons_of_mem c hx)
    rw [List.foldl_cons]
    show ∃ ap', List.foldl sentScanStep (sentScanStep ⟨pieces, current, ap, []⟩ c) rest = _
    rw [show sentScanStep ⟨pieces, current, ap, []⟩ c =
        ⟨pieces, current ++ [c], isSentenceEnd c, []⟩ by simp [sentScanStep, hc]]
    obtain ⟨ap', h⟩ := ih hrest pieces (current ++ [c]) (isSentenceEnd c)
    exact ⟨ap', by rw [h]; simp⟩

theorem splitSentences_no_ws {l : List Char} (hws : ∀ c ∈ l, isJsWhitespace c = false) :
    splitSentences l = [l] := by
  unfold splitSentences
  obtain ⟨ap', h⟩ := foldl_sentScanStep_no_ws hws [] [] false
  rw [h]
  simp

theorem foldl_hardSplitStep_flatten (n : ℕ) (t : List Char) :
    ∀ chunks cur,
      (t.foldl (hardSplitStep n) (chunks, cur)).1.flatten ++
          (t.foldl (hardSplitStep n) (chunks, cur)).2 =
        chunks.flatten ++ cur ++ t := by
  induction t with
  | nil => intro chunks cur; simp
  | cons c rest ih =>
    intro chunks cur
    rw [List.foldl_cons]
    by_cases h : cur.length + 1 = n
    · rw [show hardSplitStep n (chunks, cur) c = (chunks ++ [cur ++ [c]], []) by
        simp [hardSplitStep, h]]
      rw [ih]
      simp
    · rw [show hardSplitStep n (chunks, cur) c = (chunks, cur ++ [c]) by
        simp [hardSplitStep, h]]
      rw [ih]
      simp

theorem hardSplitText_flatten {t : List Char} {n : ℕ} (hn : 0 < n) :
    (hardSplitText t n).flatten = t := by
  unfold hardSplitText
  rw [if_neg (by omega)]
  have h := foldl_hardSplitStep_flatten n t [] []
  by_cases h2 : (t.foldl (hardSplitStep n) ([], [])).2 = []
  · simp only [h2, if_pos]
    simpa [h2] using h
  · rw [if_neg h2]
    simpa using h

theorem hardSplitText_ne_nil {t : List Char} {n : ℕ} (hn : 0 < n) (ht : t ≠ []) :
    hardSplitText t n ≠ [] := by
  intro hcontra
  apply ht
  have := hardSplitText_flatten (t := t) hn
  rw [hcontra] at this
  simpa using this.symm

theorem jsSliceFromEnd_min_length {l : List Char} {ov : ℕ} (hov : 0 < ov) :
    (jsSliceFromEnd l (min ov l.length)).length = min ov l.length := by
  unfold jsSliceFromEnd
  by_cases h : min ov l.length = 0
  · rw [if_pos h]
    omega
  · rw [if_neg h, List.length_drop]
    omega

theorem stripTailJoin_applyOverlapTail {ov : ℕ} (hov : 0 < ov) :
    ∀ (cs : List (List Char)) (prev : List Char),
      stripTailJoin ov (prev :: cs) (applyOverlapTail ov prev cs) = cs.flatten := by
  intro cs
  induction cs with
  | nil => intro prev; rfl
  | cons c cs' ih =>
    intro prev
    have h1 : (jsSliceFromEnd prev (min ov prev.length) ++ c).drop (min ov prev.length) = c := by
      calc (jsSliceFromEnd prev (min ov prev.length) ++ c).drop (min ov prev.length)
          = (jsSliceFromEnd prev (min ov prev.length) ++ c).drop
              (jsSliceFromEnd prev (min ov prev.length)).length := by
            rw [jsSliceFromEnd_min_length hov]
        _ = c := List.drop_left _ _
    show (jsSliceFromEnd prev (min ov prev.length) ++ c).drop (min ov prev.length) ++
        stripTailJoin ov (c :: cs') (applyOverlapTail ov c cs') = (c :: cs').flatten
    rw [h1, ih c]
    simp

theorem stripOverlapAndJoin_applyOverlap {ov : ℕ} (hov : 0 < ov) (pre : List (List Char)) :
    stripOverlapAndJoin ov pre (applyOverlapToChunks pre ov) = pre.flatten := by
  cases pre with
  | nil => rfl
  | cons c0 rest =>
    show c0 ++ stripTailJoin ov (c0 :: rest) (applyOverlapTail ov c0 rest) = (c0 :: rest).flatten
    rw [stripTailJoin_applyOverlapTail hov rest c0]
    simp

theorem stripTailJoin_zero :
    ∀ (cs pre : List (List Char)), cs.length ≤ pre.length →
      stripTailJoin 0 pre cs = cs.flatten := by
  intro cs
  induction cs with
  | nil => intro pre _; cases pre <;> rfl
  | cons c cs' ih =>
    intro pre h
    cases pre with
    | nil => simp at h
    | cons p ps =>
      show c.drop (min 0 p.length) ++ stripTailJoin 0 ps cs' = (c :: cs').flatten
      rw [Nat.zero_min, List.drop_zero, ih ps (by simpa using h)]
      simp

theorem stripOverlapAndJoin_self_zero (pre : List (List Char)) :
    stripOverlapAndJoin 0 pre pre = pre.flatten := by
  cases pre with
  | nil => rfl
  | cons c0 rest =>
    show c0 ++ stripTailJoin 0 (c0 :: rest) rest = (c0 :: rest).flatten
    rw [stripTailJoin_zero rest (c0 :: rest) (by simp)]
    simp

theorem stripOverlapAndJoin_singleton (ov : ℕ) (pre : List (List Char)) (x : List Char) :
    stripOverlapAndJoin ov pre [x] = x := by
  cases pre <;> simp [stripOverlapAndJoin, stripTailJoin]

theorem splitLargeParagraph_no_ws {p : List Char} {s : ℕ}
    (hws : ∀ c ∈ p, isJsWhitespace c = false) (hs : 0 < s) (hlen : s < p.length) :
    splitLargeParagraph p s = hardSplitText p s := by
  have hne : hardSplitText p s ≠ [] :=
    hardSplitText_ne_nil hs (by intro h; subst h; simp at hlen)
  unfold splitLargeParagraph
  rw [splitSentences_no_ws hws]
  simp [sentenceStep, hlen, hne]

theorem splitIntoParagraphAwareChunks_no_ws {content : List Char} {s : ℕ} (ov : ℕ)
    (hws : ∀ c ∈ content, isJsWhitespace c = false) (hs : 0 < s) (hlen : s < content.length) :
    splitIntoParagraphAwareChunks content s ov =
      if 0 < ov ∧ 1 < (hardSplitText content s).length then
        applyOverlapToChunks (hardSplitText content s) ov
      else hardSplitText content s := by
  have hnl : '\n' ∉ content := fun h => by simpa [isJsWhitespace] using hws '\n' h
  have hne : content ≠ [] := by intro h; subst h; simp at hlen
  have htrim : trimChars content = content := trimChars_eq_self hws
  unfold splitIntoParagraphAwareChunks
  rw [splitParagraphs_no_newline hnl]
  simp [htrim, List.length_pos.mpr hne, paragraphStep, hlen,
    splitLargeParagraph_no_ws hws hs hlen]

theorem chunkCore_reconstruction {content : List Char} {s : ℕ} (ov : ℕ)
    (hws : ∀ c ∈ content, isJsWhitespace c = false) (hs : 0 < s) :
    stripOverlapAndJoin ov (chunkCore content s 0) (chunkCore content s ov) =
      trimChars content := by
  have htrim : trimChars content = content := trimChars_eq_self hws
  unfold chunkCore
  rw [htrim]
  by_cases h0 : content.length = 0
  · have hcnil : content = [] := List.length_eq_zero.mp h0
    subst hcnil
    rfl
  by_cases h1 : content.length ≤ s
  · rw [if_neg h0, if_neg h0, if_pos h1, if_pos h1]
    exact stripOverlapAndJoin_singleton ov [content] content
  · rw [if_neg h0, if_neg h0, if_neg h1, if_neg h1]
    have hlen : s < content.length := by omega
    rw [splitIntoParagraphAwareChunks_no_ws ov hws hs hlen,
      splitIntoParagraphAwareChunks_no_ws 0 hws hs hlen]
    simp only [lt_irrefl, false_and, if_false]
    by_cases hov : 0 < ov ∧ 1 < (hardSplitText content s).length
    · rw [if_pos hov, stripOverlapAndJoin_applyOverlap hov.1, hardSplitText_flatten hs]
    · rw [if_neg hov]
      by_cases hov0 : ov = 0
      · subst hov0
        rw [stripOverlapAndJoin_self_zero, hardSplitText_flatten hs]
      · have hlen1 : (hardSplitText content s).length ≤ 1 := by
          rcases Nat.lt_or_ge 1 (hardSplitText content s).length with h | h
          · exact absurd ⟨Nat.pos_of_ne_zero hov0, h⟩ hov
          · exact h
        have hfl := hardSplitText_flatten (t := content) (n := s) hs
        cases hH : hardSplitText content s with
        | nil =>
          exact absurd hH (hardSplitText_ne_nil hs (fun hc => h0 (by subst hc; rfl)))
        | cons x tail =>
          cases tail with
          | nil =>
            rw [stripOverlapAndJoin_singleton]
            rw [hH] at hfl
            simpa using hfl
          | cons y t2 =>
            exfalso
            rw [hH] at hlen1
            simp at hlen1

/-- C1 (amended): for input text consisting entirely of non-whitespace
characters and any valid configuration, concatenating the chunks with the
known overlap length (min of `overlapSize` and the previous pre-overlap
chunk's length) stripped from every chunk after the first reconstructs the
trimmed input exactly.  (The claim's universal version over all texts is
false: `split` discards the paragraph separators and sentence-boundary
whitespace at chunk boundaries, see `C1_counterexample`.) -/
theorem C1_reconstruction_whitespace_free (content : List Char) (targetSize overlapSize : ℤ)
    (hws : ∀ c ∈ content, isJsWhitespace c = false)
    (hsize : 0 < targetSize) (hov0 : 0 ≤ overlapSize) (hov : overlapSize < targetSize) :
    ∃ out, ParagraphSentenceChunker.chunk content targetSize overlapSize = .ok out ∧
      stripOverlapAndJoin overlapSize.toNat (chunkCore content targetSize.toNat 0) out =
        trimChars content := by
  refine ⟨chunkCore content targetSize.toNat overlapSize.toNat, ?_, ?_⟩
  · unfold ParagraphSentenceChunker.chunk
    rw [if_neg (by omega), if_neg (by omega), if_neg (by omega)]
  · exact chunkCore_reconstruction _ hws (by omega)

/-- Witness for `C1_reconstruction_whitespace_free` at a concrete input. -/
theorem C1_reconstruction_witness :
    (∀ c ∈ "abcdefg".data, isJsWhitespace c = false) ∧
    (0 : ℤ) < 3 ∧ (0 : ℤ) ≤ 1 ∧ (1 : ℤ) < 3 ∧
    (∃ out, ParagraphSentenceChunker.chunk "abcdefg".data 3 1 = .ok out ∧
      stripOverlapAndJoin (Int.toNat 1) (chunkCore "abcdefg".data (Int.toNat 3) 0) out =
        trimChars "abcdefg".data) :=
  ⟨by decide, by decide, by decide, by decide,
    C1_reconstruction_whitespace_free "abcdefg".data 3 1 (by decide) (by decide) (by decide)
      (by decide)⟩

/-- C1 counterexample: for the valid configuration `(targetSize, overlapSize)
= (5, 1)` and the input `"aaa\n\nbbb"`, the chunker returns `["aaa", "abbb"]`
(the paragraph separator is discarded by `split(/\n\n+/)`), so stripping the
known overlap length from the second chunk and concatenating yields
`"aaabbb"`, not the trimmed input `"aaa\n\nbbb"`. -/
theorem C1_counterexample :
    ParagraphSentenceChunker.chunk "aaa\n\nbbb".data 5 1 = .ok ["aaa".data, "abbb".data] ∧
    stripOverlapAndJoin 1 (chunkCore "aaa\n\nbbb".data 5 0) ["aaa".data, "abbb".data] ≠
      trimChars "aaa\n\nbbb".data :=
  ⟨by decide, by decide⟩

/-- C5 (amended): `ParagraphSentenceChunker.chunk` fails with a configuration
error exactly when `targetSize ≤ 0`, `overlapSize ≥ targetSize`, or
`overlapSize < 0`; in particular `overlapSize = 0` is accepted (the claim's
requirement `0 < overlapSize` does not hold, see `C5_counterexample`). -/
theorem C5_validation_characterization (content : List Char) (chunkSize chunkOverlap : ℤ) :
    (∃ e, ParagraphSentenceChunker.chunk content chunkSize chunkOverlap = .error e) ↔
      chunkSize ≤ 0 ∨ chunkSize ≤ chunkOverlap ∨ chunkOverlap < 0 := by
  unfold ParagraphSentenceChunker.chunk
  split_ifs with h1 h2 h3
  · exact ⟨fun _ => Or.inl h1, fun _ => ⟨_, rfl⟩⟩
  · exact ⟨fun _ => Or.inr (Or.inl h2), fun _ => ⟨_, rfl⟩⟩
  · exact ⟨fun _ => Or.inr (Or.inr h3), fun _ => ⟨_, rfl⟩⟩
  · constructor
    · intro ⟨e, he⟩
      simp at he
    · intro h
      rcases h with h | h | h <;> omega

/-- C5 counterexample: a call with `overlapSize = 0` (which violates the
claimed requirement `0 < overlapSize`) does not fail with a configuration
error; it returns chunks. -/
theorem C5_counterexample :
    ParagraphSentenceChunker.chunk "ab".data 1 0 = .ok [['a'], ['b']] := by decide

/-- One parent chunk together with its child chunks
(`ParentChunkResult` in parent-child-chunking.service.ts). -/
structure ParentChunkResult where
  text : List Char
  children : List (List Char)
  deriving DecidableEq, Repr

/-- Configuration of `ParentChildChunkingService`
(`ParentChildChunkingConfig`).  `childChunkSize` is integral (the
configuration schema coerces it with `.int()`); the factors are arbitrary
numbers, modelled as rationals. -/
structure ParentChildChunkingConfig where
  childChunkSize : ℤ
  childChunkOverlapFactor : ℚ
  parentChunkSizeFactor : ℚ
  deriving DecidableEq, Repr

/-- The state of a constructed `ParentChildChunkingService`: the validated
child size and the two derived sizes. -/
structure ParentChildChunkingService where
  childChunkSize : ℤ
  childChunkOverlap : ℤ
  parentChunkSize : ℤ
  deriving DecidableEq, Repr

/-- `ParentChildChunkingService.create`: validate the configuration (failing
at construction otherwise) and derive
`parentChunkSize = floor(childChunkSize * parentChunkSizeFactor)` and
`childChunkOverlap = floor(childChunkSize * childChunkOverlapFactor)`. -/
def ParentChildChunkingService.create (config : ParentChildChunkingConfig) :
    Except String ParentChildChunkingService :=
  if config.childChunkSize ≤ 0 then .error "childChunkSize must be > 0"
  else if config.childChunkOverlapFactor ≤ 0 ∨ 1 ≤ config.childChunkOverlapFactor then
    .error "childChunkOverlapFactor must be > 0 and < 1"
  else if config.parentChunkSizeFactor < 1 then
    .error "parentChunkSizeFactor must be >= 1"
  else
    .ok { childChunkSize := config.childChunkSize
          childChunkOverlap := ⌊(config.childChunkSize : ℚ) * config.childChunkOverlapFactor⌋
          parentChunkSize := ⌊(config.childChunkSize : ℚ) * config.parentChunkSizeFactor⌋ }

/-- The loop body of `ParentChildChunkingService.chunk`: for each parent
text, run the text chunker again with the child size and overlap.  A thrown
error propagates, aborting the loop, exactly as an exception would in the
source. -/
def ParentChildChunkingService.chunkLoop (svc : ParentChildChunkingService) :
    List (List Char) → Except String (List ParentChunkResult)
  | [] => .ok []
  | p :: rest =>
    match ParagraphSentenceChunker.chunk p svc.childChunkSize svc.childChunkOverlap with
    | .error e => .error e
    | .ok children =>
      match svc.chunkLoop rest with
      | .error e => .error e
      | .ok results => .ok ({ text := p, children := children } :: results)

/-- `ParentChildChunkingService.chunk`: empty or whitespace-only content
yields `[]`; otherwise the text chunker is run with `(parentChunkSize, 0)`
to produce the parents and again per parent with
`(childChunkSize, childChunkOverlap)` to produce its children. -/
def ParentChildChunkingService.chunk (svc : ParentChildChunkingService)
    (content : List Char) : Except String (List ParentChunkResult) :=
  if (trimChars content).length = 0 then .ok []
  else
    match ParagraphSentenceChunker.chunk content svc.parentChunkSize 0 with
    | .error e => .error e
    | .ok parentTexts => svc.chunkLoop parentTexts

theorem chunkLoop_ok_mem {svc : ParentChildChunkingService} :
    ∀ {l : List (List Char)} {rs : List ParentChunkResult},
      svc.chunkLoop l = .ok rs →
      ∀ r ∈ rs,
        ParagraphSentenceChunker.chunk r.text svc.childChunkSize svc.childChunkOverlap =
          .ok r.children := by
  intro l
  induction l with
  | nil =>
    intro rs h r hr
    unfold ParentChildChunkingService.chunkLoop at h
    cases h
    simp at hr
  | cons p rest ih =>
    intro rs h r hr
    unfold ParentChildChunkingService.chunkLoop at h
    cases hc : ParagraphSentenceChunker.chunk p svc.childChunkSize svc.childChunkOverlap with
    | error e => rw [hc] at h; cases h
    | ok children =>
      rw [hc] at h
      cases hrest : svc.chunkLoop rest with
      | error e => rw [hrest] at h; cases h
      | ok results =>
        rw [hrest] at h
        cases h
        rcases List.mem_cons.mp hr with hr | hr
        · subst hr
          exact hc
        · exact ih hrest r hr

/-- C7: `ParentChildChunkingService.create` fails at construction exactly for
configurations with `childChunkSize ≤ 0`, `childChunkOverlapFactor ∉ (0,1)`,
or `parentChunkSizeFactor < 1`, and for every configuration satisfying all
three bounds succeeds with
`parentChunkSize = ⌊childChunkSize * parentChunkSizeFactor⌋` and
`childChunkOverlap = ⌊childChunkSize * childChunkOverlapFactor⌋`. -/
theorem C7_create_validation (config : ParentChildChunkingConfig) :
    ((∃ e, ParentChildChunkingService.create config = .error e) ↔
      (config.childChunkSize ≤ 0 ∨ config.childChunkOverlapFactor ≤ 0 ∨
        1 ≤ config.childChunkOverlapFactor ∨ config.parentChunkSizeFactor < 1)) ∧
    (0 < config.childChunkSize → 0 < config.childChunkOverlapFactor →
      config.childChunkOverlapFactor < 1 → 1 ≤ config.parentChunkSizeFactor →
      ParentChildChunkingService.create config =
        .ok { childChunkSize := config.childChunkSize
              childChunkOverlap :=
                ⌊(config.childChunkSize : ℚ) * config.childChunkOverlapFactor⌋
              parentChunkSize :=
                ⌊(config.childChunkSize : ℚ) * config.parentChunkSizeFactor⌋ }) := by
  constructor
  · unfold ParentChildChunkingService.create
    split_ifs with h1 h2 h3
    · exact ⟨fun _ => Or.inl h1, fun _ => ⟨_, rfl⟩⟩
    · refine ⟨fun _ => ?_, fun _ => ⟨_, rfl⟩⟩
      rcases h2 with h | h
      exacts [Or.inr (Or.inl h), Or.inr (Or.inr (Or.inl h))]
    · exact ⟨fun _ => Or.inr (Or.inr (Or.inr h3)), fun _ => ⟨_, rfl⟩⟩
    · constructor
      · intro ⟨e, he⟩
        cases he
      · intro h
        push_neg at h2
        rcases h with h | h | h | h
        · exact (h1 h).elim
        · exact absurd h (not_le.mpr h2.1)
        · exact absurd h (not_le.mpr (lt_of_lt_of_le h2.2 (le_refl _)))
        · exact (h3 h).elim
  · intro hcs hf1 hf2 hpf
    unfold ParentChildChunkingService.create
    rw [if_neg (by omega), if_neg (by push_neg; constructor <;> linarith),
      if_neg (by linarith)]

/-- Witness for `C7_create_validation` at the concrete configuration
`(childChunkSize, childChunkOverlapFactor, parentChunkSizeFactor) = (5, 1/5, 2)`. -/
theorem C7_create_witness :
    (0 : ℤ) < 5 ∧ (0 : ℚ) < 1/5 ∧ (1/5 : ℚ) < 1 ∧ (1 : ℚ) ≤ 2 ∧
    ParentChildChunkingService.create ⟨5, 1/5, 2⟩ =
      .ok { childChunkSize := 5, childChunkOverlap := 1, parentChunkSize := 10 } :=
  ⟨by norm_num, by norm_num, by norm_num, by norm_num, by
    rw [(C7_create_validation ⟨5, 1/5, 2⟩).2 (by norm_num) (by norm_num) (by norm_num)
      (by norm_num)]
    norm_num [ParentChildChunkingService.mk.injEq]⟩

/-- C6 (amended): for a validly constructed service, (a) empty or
whitespace-only content yields an empty result, and (b) every parent chunk
whose content is shorter than `childChunkSize` and is not whitespace-only
has exactly one child, equal to the parent's trimmed text.  (The claim's
"equals the parent's full text" fails whenever the parent's text carries
boundary whitespace, which the child pass trims away: see
`C6_counterexample`.) -/
theorem C6_chunk_empty_and_short_parent (config : ParentChildChunkingConfig)
    (svc : ParentChildChunkingService)
    (hcreate : ParentChildChunkingService.create config = .ok svc) :
    (∀ content : List Char, (trimChars content).length = 0 →
      svc.chunk content = .ok []) ∧
    (∀ (content : List Char) (rs : List ParentChunkResult),
      svc.chunk content = .ok rs →
      ∀ r ∈ rs, (r.text.length : ℤ) < svc.childChunkSize →
        trimChars r.text ≠ [] → r.children = [trimChars r.text]) := by
  have hfields : 0 < svc.childChunkSize ∧ 0 ≤ svc.childChunkOverlap ∧
      svc.childChunkOverlap < svc.childChunkSize := by
    unfold ParentChildChunkingService.create at hcreate
    split_ifs at hcreate with h1 h2 h3
    cases hcreate
    push_neg at h1 h2
    refine ⟨h1, ?_, ?_⟩
    · exact Int.le_floor.mpr (by
        push_cast
        exact mul_nonneg (by exact_mod_cast h1.le) h2.1.le)
    · exact Int.floor_lt.mpr (by
        push_cast
        exact mul_lt_of_lt_one_right (by exact_mod_cast h1) h2.2)
  constructor
  · intro content hempty
    unfold ParentChildChunkingService.chunk
    rw [if_pos hempty]
  · intro content rs hchunk r hr hshort htrim
    unfold ParentChildChunkingService.chunk at hchunk
    by_cases hempty : (trimChars content).length = 0
    · rw [if_pos hempty] at hchunk
      cases hchunk
      simp at hr
    · rw [if_neg hempty] at hchunk
      cases hp : ParagraphSentenceChunker.chunk content svc.parentChunkSize 0 with
      | error e => rw [hp] at hchunk; cases hchunk
      | ok parentTexts =>
        rw [hp] at hchunk
        have hc := chunkLoop_ok_mem hchunk r hr
        obtain ⟨hcs, hov0, hovlt⟩ := hfields
        unfold ParagraphSentenceChunker.chunk at hc
        rw [if_neg (by omega), if_neg (by omega), if_neg (by omega)] at hc
        injection hc with hc
        rw [← hc]
        unfold chunkCore
        rw [if_neg (by simpa [List.length_eq_zero] using htrim), if_pos (by
          have h1 := trimChars_length_le r.text
          omega)]

/-- Witness for `C6_chunk_empty_and_short_parent` at the configuration
`(5, 1/5, 1)` (service `(childSize, childOverlap, parentSize) = (5, 1, 5)`),
whitespace-only content `"  "` and content `"hi"`, whose single parent
(`"hi"`, shorter than the child size 5) gets the single child `"hi"`. -/
theorem C6_witness :
    ParentChildChunkingService.chunk
        { childChunkSize := 5, childChunkOverlap := 1, parentChunkSize := 5 } "  ".data =
      .ok [] ∧
    ({ text := "hi".data, children := ["hi".data] } : ParentChunkResult).children =
      [trimChars "hi".data] := by
  have hcreate : ParentChildChunkingService.create ⟨5, 1/5, 1⟩ =
      .ok { childChunkSize := 5, childChunkOverlap := 1, parentChunkSize := 5 } := by
    unfold ParentChildChunkingService.create
    norm_num [ParentChildChunkingService.mk.injEq]
  have h := C6_chunk_empty_and_short_parent ⟨5, 1/5, 1⟩ _ hcreate
  exact ⟨h.1 "  ".data (by decide),
    h.2 "hi".data [{ text := "hi".data, children := ["hi".data] }] (by decide)
      { text := "hi".data, children := ["hi".data] } (by decide) (by decide) (by decide)⟩

/-- C6 counterexample: with configuration `(5, 1/5, 1)` the content
`"abc \n\ndef"` produces the parent `"abc "` (trailing space kept by the
paragraph splitter), whose length 4 is shorter than the child size 5, yet
its single child is the trimmed `"abc"`, not the parent's full text
`"abc "`. -/
theorem C6_counterexample :
    ParentChildChunkingService.create ⟨5, 1/5, 1⟩ =
      .ok { childChunkSize := 5, childChunkOverlap := 1, parentChunkSize := 5 } ∧
    ParentChildChunkingService.chunk
        { childChunkSize := 5, childChunkOverlap := 1, parentChunkSize := 5 }
        "abc \n\ndef".data =
      .ok [{ text := "abc ".data, children := ["abc".data] },
           { text := "def".data, children := ["def".data] }] ∧
    "abc ".data.length < 5 ∧ ["abc".data] ≠ ["abc ".data] := by
  refine ⟨?_, by decide, by decide, by decide⟩
  unfold ParentChildChunkingService.create
  norm_num [ParentChildChunkingService.mk.injEq]

/-- A similarity match returned by the vector store
(`QueryMatch` in vector-db.interface.ts).  Of the metadata the retriever
reads only `parentId`; the other metadata fields play no role in the claims
about the retriever and are omitted. -/
structure QueryMatch where
  id : String
  document : List Char
  similarity : ℚ
  parentId : ℤ
  deriving DecidableEq, Repr

/-- A parent chunk row of the relational store
(`ParentChunkDocument` in parent-chunk-store.interface.ts). -/
structure ParentChunkDocument where
  id : ℤ
  sourceFile : String
  parentIndex : ℕ
  content : List Char
  hash : String
  syncedAt : ℕ
  deriving DecidableEq, Repr

/-- One ranked entry of the retriever's result
(`RetrievedContext.entries` elements). -/
structure RankedContextEntry where
  sourceFile : String
  content : List Char
  similarity : ℚ
  deriving DecidableEq, Repr

/-- One `parentBestSimilarity.set` interaction of the retriever's grouping
loop: a JavaScript `Map` keeps insertion order, updates an existing key in
place, and the loop only overwrites when the new similarity is strictly
greater than the existing one. -/
def setBest : List (ℤ × ℚ) → ℤ → ℚ → List (ℤ × ℚ)
  | [], pid, sim => [(pid, sim)]
  | (k, v) :: rest, pid, sim =>
    if k = pid then (k, if v < sim then sim else v) :: rest
    else (k, v) :: setBest rest pid sim

/-- The `parentBestSimilarity` map built by
`MyCustomRetrieverService.retrieve`: matches grouped by
`metadata.parentId`, keeping the maximum similarity per parent. -/
def parentBestSimilarity (ms : List QueryMatch) : List (ℤ × ℚ) :=
  ms.foldl (fun acc m => setBest acc m.parentId m.similarity) []

/-- `Map.get` on the association list representing the map. -/
def lookupBest : List (ℤ × ℚ) → ℤ → Option ℚ
  | [], _ => none
  | (k, v) :: rest, pid => if k = pid then some v else lookupBest rest pid

/-- The comparator `(a, b) => simB - simA` used to sort parents: `b`'s best
similarity is at most `a`'s (descending order). -/
def retrieverSortRel (best : List (ℤ × ℚ)) (a b : ParentChunkDocument) : Prop :=
  (lookupBest best b.id).getD 0 ≤ (lookupBest best a.id).getD 0

instance (best : List (ℤ × ℚ)) : DecidableRel (retrieverSortRel best) := fun a b =>
  inferInstanceAs (Decidable ((lookupBest best b.id).getD 0 ≤ (lookupBest best a.id).getD 0))

instance (best : List (ℤ × ℚ)) : IsTotal ParentChunkDocument (retrieverSortRel best) :=
  ⟨fun _ _ => le_total _ _⟩

instance (best : List (ℤ × ℚ)) : IsTrans ParentChunkDocument (retrieverSortRel best) :=
  ⟨fun _ _ _ hab hbc => le_trans hbc hab⟩

/-- Lines 100-116 of the retriever: sort the parent rows descending by their
best-child similarity (JavaScript's sort is stable and consistent with the
comparator, so it coincides with insertion sort by that comparator) and emit
one entry per row with `parentBestSimilarity.get(parent.id) ?? 0`. -/
def retrieveEntries (ms : List QueryMatch) (ps : List ParentChunkDocument) :
    List RankedContextEntry :=
  let best := parentBestSimilarity ms
  (ps.insertionSort (retrieverSortRel best)).map fun p =>
    { sourceFile := p.sourceFile, content := p.content,
      similarity := (lookupBest best p.id).getD 0 }

/-- Collaborator calls made by the retriever / composer, in order. -/
inductive RagCall where
  | embedQuery (question : String)
  | vectorQuery (nResults : ℤ) (minSimilarity : ℚ)
  | getParents (ids : List ℤ)
  | llmAsk (prompt : String)
  deriving DecidableEq, Repr

/-- The collaborators of `MyCustomRetrieverService`, as opaque functions. -/
structure RetrieverOracles where
  embedRetrievalQuery : String → List ℚ
  vectorQuery : List ℚ → ℤ → ℚ → List QueryMatch
  getParents : List ℤ → List ParentChunkDocument

/-- `MyCustomRetrieverService.retrieve`, with the trace of collaborator
calls it makes.  An empty or whitespace-only question is rejected before any
collaborator call; zero matches or zero parent rows short-circuit to an
empty result. -/
def MyCustomRetrieverService.retrieve (o : RetrieverOracles) (nResults : ℤ)
    (minSimilarity : ℚ) (question : String) :
    Except String (List RankedContextEntry) × List RagCall :=
  if (trimChars question.data).length = 0 then
    (.error "question is required and cannot be empty", [])
  else
    let emb := o.embedRetrievalQuery question
    let childMatches := o.vectorQuery emb nResults minSimilarity
    let tr := [RagCall.embedQuery question, RagCall.vectorQuery nResults minSimilarity]
    if childMatches.length = 0 then (.ok [], tr)
    else
      let parentIds := (parentBestSimilarity childMatches).map Prod.fst
      let parents := o.getParents parentIds
      let tr := tr ++ [RagCall.getParents parentIds]
      if parents.length = 0 then (.ok [], tr)
      else (.ok (retrieveEntries childMatches parents), tr)

/-- The similarity scores of the matches whose metadata carries the given
parent identity. -/
def matchedSimilarities (ms : List QueryMatch) (pid : ℤ) : List ℚ :=
  (ms.filter fun m => m.parentId == pid).map fun m => m.similarity

/-- Maximum of two optional similarities (`none` is the identity). -/
def omax : Option ℚ → Option ℚ → Option ℚ
  | none, b => b
  | some v, none => some v
  | some v, some w => some (max v w)

/-- The best similarity among the matches of one parent, folded from the
right. -/
def bestOf (ms : List QueryMatch) (pid : ℤ) : Option ℚ :=
  ms.foldr (fun m acc => if m.parentId = pid then omax (some m.similarity) acc else acc) none

theorem omax_none_right : ∀ a : Option ℚ, omax a none = a
  | none => rfl
  | some _ => rfl

theorem omax_assoc : ∀ a b c : Option ℚ, omax (omax a b) c = omax a (omax b c)
  | none, _, _ => rfl
  | some _, none, _ => rfl
  | some _, some _, none => rfl
  | some _, some _, some _ => by simp [omax, max_assoc]

theorem lookupBest_setBest_self (acc : List (ℤ × ℚ)) (pid : ℤ) (sim : ℚ) :
    lookupBest (setBest acc pid sim) pid = omax (lookupBest acc pid) (some sim) := by
  induction acc with
  | nil => simp [setBest, lookupBest, omax]
  | cons kv rest ih =>
    obtain ⟨k, v⟩ := kv
    by_cases hk : k = pid
    · subst hk
      by_cases hv : v < sim
      · simp [setBest, lookupBest, omax, hv, max_eq_right hv.le]
      · simp [setBest, lookupBest, omax, hv, max_eq_left (not_lt.mp hv)]
    · simp [setBest, lookupBest, hk, ih]

theorem bestOf_cons_pos {m : QueryMatch} {rest : List QueryMatch} {pid : ℤ}
    (hm : m.parentId = pid) :
    bestOf (m :: rest) pid = omax (some m.similarity) (bestOf rest pid) := by
  unfold bestOf
  rw [List.foldr_cons, if_pos hm]

theorem bestOf_cons_neg {m : QueryMatch} {rest : List QueryMatch} {pid : ℤ}
    (hm : ¬m.parentId = pid) :
    bestOf (m :: rest) pid = bestOf rest pid := by
  unfold bestOf
  rw [List.foldr_cons, if_neg hm]

theorem lookupBest_setBest_other (acc : List (ℤ × ℚ)) {pid qid : ℤ} (sim : ℚ)
    (h : qid ≠ pid) :
    lookupBest (setBest acc pid sim) qid = lookupBest acc qid := by
  induction acc with
  | nil => simp [setBest, lookupBest, h, Ne.symm h]
  | cons kv rest ih =>
    obtain ⟨k, v⟩ := kv
    by_cases hk : k = pid
    · subst hk
      simp [setBest, lookupBest, Ne.symm h, ih]
    · by_cases hq : k = qid
      · subst hq
        simp [setBest, lookupBest, hk]
      · simp [setBest, lookupBest, hk, hq, ih]

theorem lookupBest_foldl_setBest (ms : List QueryMatch) (qid : ℤ) :
    ∀ acc : List (ℤ × ℚ),
      lookupBest (ms.foldl (fun acc m => setBest acc m.parentId m.similarity) acc) qid =
        omax (lookupBest acc qid) (bestOf ms qid) := by
  induction ms with
  | nil => intro acc; rw [List.foldl_nil]; exact (omax_none_right _).symm
  | cons m rest ih =>
    intro acc
    rw [List.foldl_cons, ih]
    by_cases hm : m.parentId = qid
    · have h1 : lookupBest (setBest acc m.parentId m.similarity) qid =
          omax (lookupBest acc qid) (some m.similarity) := by
        rw [hm, lookupBest_setBest_self]
      rw [h1, bestOf_cons_pos hm, omax_assoc]
    · have h1 : lookupBest (setBest acc m.parentId m.similarity) qid = lookupBest acc qid :=
        lookupBest_setBest_other acc m.similarity (fun h => hm h.symm)
      rw [h1, bestOf_cons_neg hm]

theorem lookupBest_parentBestSimilarity (ms : List QueryMatch) (qid : ℤ) :
    lookupBest (parentBestSimilarity ms) qid = bestOf ms qid := by
  unfold parentBestSimilarity
  rw [lookupBest_foldl_setBest]
  rfl

theorem bestOf_none_no_match {ms : List QueryMatch} {pid : ℤ} (h : bestOf ms pid = none) :
    matchedSimilarities ms pid = [] := by
  induction ms with
  | nil => rfl
  | cons m rest ih =>
    by_cases hm : m.parentId = pid
    · rw [bestOf_cons_pos hm] at h
      exfalso
      cases hb : bestOf rest pid <;> rw [hb] at h <;> simp [omax] at h
    · rw [bestOf_cons_neg hm] at h
      unfold matchedSimilarities
      rw [List.filter_cons_of_neg (by simpa using hm)]
      exact ih h

theorem bestOf_spec {ms : List QueryMatch} {pid : ℤ} {v : ℚ} (h : bestOf ms pid = some v) :
    v ∈ matchedSimilarities ms pid ∧ ∀ s ∈ matchedSimilarities ms pid, s ≤ v := by
  induction ms generalizing v with
  | nil => cases h
  | cons m rest ih =>
    by_cases hm : m.parentId = pid
    · rw [bestOf_cons_pos hm] at h
      have hfil : matchedSimilarities (m :: rest) pid =
          m.similarity :: matchedSimilarities rest pid := by
        unfold matchedSimilarities
        rw [List.filter_cons_of_pos (by simpa using hm), List.map_cons]
      cases hrest : bestOf rest pid with
      | none =>
        rw [hrest] at h
        have hv : v = m.similarity := by
          simpa [omax] using h.symm
        subst hv
        rw [hfil, bestOf_none_no_match hrest]
        exact ⟨by simp, by simp⟩
      | some w =>
        rw [hrest] at h
        have hv : v = max m.similarity w := by
          simpa [omax] using h.symm
        subst hv
        obtain ⟨hmem, hbound⟩ := ih hrest
        constructor
        · rw [hfil]
          rcases max_cases m.similarity w with ⟨heq, _⟩ | ⟨heq, _⟩
          · rw [heq]; exact List.mem_cons_self _ _
          · rw [heq]; exact List.mem_cons_of_mem _ hmem
        · intro s hs
          rw [hfil] at hs
          rcases List.mem_cons.mp hs with hs | hs
          · subst hs; exact le_max_left _ _
          · exact le_trans (hbound s hs) (le_max_right _ _)
    · rw [bestOf_cons_neg hm] at h
      have hfil : matchedSimilarities (m :: rest) pid = matchedSimilarities rest pid := by
        unfold matchedSimilarities
        rw [List.filter_cons_of_neg (by simpa using hm)]
      rw [hfil]
      exact ih h

theorem lookupBest_none_iff (l : List (ℤ × ℚ)) (pid : ℤ) :
    lookupBest l pid = none ↔ pid ∉ l.map Prod.fst := by
  induction l with
  | nil => simp [lookupBest]
  | cons kv rest ih =>
    obtain ⟨k, v⟩ := kv
    by_cases hk : k = pid
    · subst hk
      simp [lookupBest]
    · simp [lookupBest, hk, ih, Ne.symm hk]

/-- C2: whenever the vector store returns a nonempty match list for a valid
question and the parent store behaves like a store (returning at most one
row per identity, each for a requested identity), the retriever returns one
entry per returned parent row, each entry carrying the maximum similarity
among that parent's matched children — an element of those similarities that
bounds them all, hence neither their average nor their sum in general — and
the entries are ordered descending by that best-child similarity. -/
theorem C2_retrieve_merge_rank (o : RetrieverOracles) (nResults : ℤ) (minSimilarity : ℚ)
    (question : String) (ms : List QueryMatch) (ps : List ParentChunkDocument)
    (hq : (trimChars question.data).length ≠ 0)
    (hms : o.vectorQuery (o.embedRetrievalQuery question) nResults minSimilarity = ms)
    (hmsne : ms ≠ [])
    (hps : o.getParents ((parentBestSimilarity ms).map Prod.fst) = ps)
    (hpid : ∀ p ∈ ps, p.id ∈ (parentBestSimilarity ms).map Prod.fst) :
    ∃ (entries : List RankedContextEntry) (sim : ℤ → ℚ),
      (MyCustomRetrieverService.retrieve o nResults minSimilarity question).1 = .ok entries ∧
      entries.Perm (ps.map fun p =>
        { sourceFile := p.sourceFile, content := p.content, similarity := sim p.id }) ∧
      (∀ p ∈ ps, sim p.id ∈ matchedSimilarities ms p.id ∧
        ∀ s ∈ matchedSimilarities ms p.id, s ≤ sim p.id) ∧
      entries.Pairwise (fun a b => b.similarity ≤ a.similarity) := by
  have hsim : ∀ p ∈ ps, (lookupBest (parentBestSimilarity ms) p.id).getD 0 ∈
      matchedSimilarities ms p.id ∧
      ∀ s ∈ matchedSimilarities ms p.id,
        s ≤ (lookupBest (parentBestSimilarity ms) p.id).getD 0 := by
    intro p hp
    have hmem := hpid p hp
    cases hl : lookupBest (parentBestSimilarity ms) p.id with
    | none => exact absurd hmem ((lookupBest_none_iff _ _).mp hl)
    | some v =>
      have hb : bestOf ms p.id = some v := by
        rw [← lookupBest_parentBestSimilarity, hl]
      simpa [hl] using bestOf_spec hb
  refine ⟨retrieveEntries ms ps, fun pid => (lookupBest (parentBestSimilarity ms) pid).getD 0,
    ?_, ?_, hsim, ?_⟩
  · unfold MyCustomRetrieverService.retrieve
    rw [if_neg hq]
    simp only [hms, hps]
    by_cases hps0 : ps.length = 0
    · rw [if_neg (by simpa [List.length_eq_zero] using hmsne), if_pos hps0]
      have hnil : ps = [] := List.length_eq_zero.mp hps0
      subst hnil
      rfl
    · rw [if_neg (by simpa [List.length_eq_zero] using hmsne), if_neg hps0]
  · exact List.Perm.map _ (List.perm_insertionSort _ ps)
  · have hsorted := List.sorted_insertionSort (retrieverSortRel (parentBestSimilarity ms)) ps
    exact hsorted.map _ (fun a b hab => hab)

/-- Vector-store matches used by the witness of `C2_retrieve_merge_rank`:
one parent (id 10) with three matched children at similarities 85, 80, 78
and one parent (id 20) with best similarity 95. -/
def witnessMatches : List QueryMatch :=
  [ { id := "chunk:recipe.txt:10:0", document := "a".data, similarity := 85, parentId := 10 },
    { id := "chunk:recipe.txt:10:1", document := "b".data, similarity := 80, parentId := 10 },
    { id := "chunk:recipe.txt:10:2", document := "c".data, similarity := 78, parentId := 10 },
    { id := "chunk:other.txt:20:0", document := "d".data, similarity := 95, parentId := 20 } ]

/-- Parent rows returned by the parent store in the witness of
`C2_retrieve_merge_rank`. -/
def witnessParents : List ParentChunkDocument :=
  [ { id := 10, sourceFile := "recipe.txt", parentIndex := 0, content := "p10".data,
      hash := "h1", syncedAt := 0 },
    { id := 20, sourceFile := "other.txt", parentIndex := 0, content := "p20".data,
      hash := "h2", syncedAt := 0 } ]

/-- Constant collaborators for the witness of `C2_retrieve_merge_rank`. -/
def witnessOracles : RetrieverOracles where
  embedRetrievalQuery := fun _ => []
  vectorQuery := fun _ _ _ => witnessMatches
  getParents := fun _ => witnessParents

/-- Witness for `C2_retrieve_merge_rank` at concrete matches and parents. -/
theorem C2_retrieve_witness :
    (trimChars "How to cook pasta?".data).length ≠ 0 ∧
    witnessMatches ≠ [] ∧
    (∀ p ∈ witnessParents, p.id ∈ (parentBestSimilarity witnessMatches).map Prod.fst) ∧
    (∃ (entries : List RankedContextEntry) (sim : ℤ → ℚ),
      (MyCustomRetrieverService.retrieve witnessOracles 5 0 "How to cook pasta?").1 =
        .ok entries ∧
      entries.Perm (witnessParents.map fun p =>
        { sourceFile := p.sourceFile, content := p.content, similarity := sim p.id }) ∧
      (∀ p ∈ witnessParents, sim p.id ∈ matchedSimilarities witnessMatches p.id ∧
        ∀ s ∈ matchedSimilarities witnessMatches p.id, s ≤ sim p.id) ∧
      entries.Pairwise (fun a b => b.similarity ≤ a.similarity)) :=
  ⟨by decide, by decide, by decide,
    C2_retrieve_merge_rank witnessOracles 5 0 "How to cook pasta?" witnessMatches
      witnessParents (by decide) rfl (by decide) rfl (by decide)⟩

/-- The fixed no-results message of the cooking assistant
(`NO_RESULTS_MESSAGE`). -/
def noResultsMessage : String :=
  "I could not find any relevant information in the cookbook to answer your question."

/-- JavaScript `similarity.toFixed(2)`, modelled on rationals: round to two
decimal places (the source applies it to a binary float, whose tie-breaking
quirks are immaterial here — no claim inspects the formatted digits). -/
def toFixed2 (q : ℚ) : String :=
  let n : ℤ := ⌊q * 100 + 1/2⌋
  let ip : ℤ := n / 100
  let fp : ℕ := (n % 100).toNat
  toString ip ++ "." ++ (if fp < 10 then "0" else "") ++ toString fp

/-- The grounded prompt of `MyCustomGeneratorService` (template literal in
`buildPrompt`). -/
def generatorPrompt (question context : String) : String :=
  "You are a helpful cooking assistant that answers questions based on the provided recipes.\n\nContext from user\x27s cookbook:\n" ++
    context ++ "\n\nUser question: " ++ question ++
    "\n\nInstructions:\n- Answer the question using only the information provided in the context above\n- If the context doesn\x27t contain enough information to answer the question, say so clearly\n- Be concise and accurate\n- Reference specific documents when applicable\n\nAnswer:"

/-- The context block of `MyCustomGeneratorService.generate`:
`[Document i+1] Source: {sourceFile} (Best match: {similarity.toFixed(2)})`
followed by the parent content, blocks joined by a blank line. -/
def buildGeneratorContext (entries : List RankedContextEntry) : String :=
  String.intercalate "\n\n" (entries.enum.map fun ei =>
    "[Document " ++ toString (ei.1 + 1) ++ "] Source: " ++ ei.2.sourceFile ++
      " (Best match: " ++ toFixed2 ei.2.similarity ++ ")\n" ++ String.mk ei.2.content)

/-- `MyCustomGeneratorService.generate`: delegate to the retriever; with
zero entries return the fixed no-results message without invoking the
language model.  The boolean records whether `askingService.ask` was
invoked. -/
def MyCustomGeneratorService.generate
    (retrieveFn : String → Except String (List RankedContextEntry))
    (askFn : String → String) (question : String) : Except String String × Bool :=
  match retrieveFn question with
  | .error e => (.error e, false)
  | .ok entries =>
    if entries.length = 0 then (.ok noResultsMessage, false)
    else
      let prompt := generatorPrompt question (buildGeneratorContext entries)
      (.ok (askFn prompt), true)

/-- The collaborators of `MyCustomRAGService`, as opaque functions. -/
structure RagOracles where
  embedRetrievalQuery : String → List ℚ
  vectorQuery : List ℚ → ℤ → ℚ → List QueryMatch
  ask : String → String

/-- The prompt template of `MyCustomRAGService` with `{context}` and
`{question}` substituted (the source's `PROMPT_TEMPLATE.replace`, each
placeholder occurring exactly once). -/
def ragPrompt (question context : String) : String :=
  "You are a helpful cooking assistant that answers questions based on the provided recipes.\n\nContext from user\x27s cookbook:\n" ++
    context ++ "\n\nUser question: " ++ question ++
    "\n\nInstructions:\n- Answer the question using only the information provided in the context above\n- If the context doesn\x27t contain enough information to answer the question, say so clearly\n- Be concise and accurate\n- Reference specific documents when applicable\n\nAnswer:"

/-- `MyCustomRAGService.ask`: validate the question, embed it, query the
vector store, and either return the fixed no-results message or prompt the
language model with the matched documents.  The trace lists the collaborator
calls made, in order. -/
def MyCustomRAGService.ask (o : RagOracles) (nResults : ℤ) (minSimilarity : ℚ)
    (question : String) : Except String String × List RagCall :=
  if (trimChars question.data).length = 0 then
    (.error "question is required and cannot be empty", [])
  else
    let ms := o.vectorQuery (o.embedRetrievalQuery question) nResults minSimilarity
    let tr := [RagCall.embedQuery question, RagCall.vectorQuery nResults minSimilarity]
    if ms.length = 0 then (.ok noResultsMessage, tr)
    else
      let context := String.intercalate "\n\n" (ms.enum.map fun mi =>
        "[Document " ++ toString (mi.1 + 1) ++ "] (Similarity: " ++
          toFixed2 mi.2.similarity ++ ")\n" ++ String.mk mi.2.document)
      let prompt := ragPrompt question context
      (.ok (o.ask prompt), tr ++ [RagCall.llmAsk prompt])

/-- C8: an empty or whitespace-only question makes both the retriever and
the composer return the validation error synchronously, with an empty
collaborator-call trace — in particular before any embedding call. -/
theorem C8_empty_question_validation (o1 : RetrieverOracles) (o2 : RagOracles)
    (nResults : ℤ) (minSimilarity : ℚ) (question : String)
    (hq : (trimChars question.data).length = 0) :
    MyCustomRetrieverService.retrieve o1 nResults minSimilarity question =
      (.error "question is required and cannot be empty", []) ∧
    MyCustomRAGService.ask o2 nResults minSimilarity question =
      (.error "question is required and cannot be empty", []) := by
  constructor
  · unfold MyCustomRetrieverService.retrieve
    rw [if_pos hq]
  · unfold MyCustomRAGService.ask
    rw [if_pos hq]

/-- Witness for `C8_empty_question_validation` at the whitespace-only
question `"   "`. -/
theorem C8_empty_question_witness :
    (trimChars "   ".data).length = 0 ∧
    (MyCustomRetrieverService.retrieve witnessOracles 5 0 "   " =
      (.error "question is required and cannot be empty", []) ∧
    MyCustomRAGService.ask
        { embedRetrievalQuery := fun _ => [], vectorQuery := fun _ _ _ => [],
          ask := fun _ => "" } 5 0 "   " =
      (.error "question is required and cannot be empty", [])) :=
  ⟨by decide,
    C8_empty_question_validation witnessOracles
      { embedRetrievalQuery := fun _ => [], vectorQuery := fun _ _ _ => [],
        ask := fun _ => "" } 5 0 "   " (by decide)⟩

/-- C9: when retrieval yields zero entries, the composer returns the fixed
configured no-results message and does not invoke the language-model
completion function. -/
theorem C9_no_results_short_circuit
    (retrieveFn : String → Except String (List RankedContextEntry))
    (askFn : String → String) (question : String)
    (h : retrieveFn question = .ok []) :
    MyCustomGeneratorService.generate retrieveFn askFn question =
      (.ok noResultsMessage, false) := by
  unfold MyCustomGeneratorService.generate
  rw [h]
  rfl

/-- Witness for `C9_no_results_short_circuit` with a retriever returning no
entries. -/
theorem C9_no_results_witness :
    ((fun _ : String => (.ok [] : Except String (List RankedContextEntry)))
        "How to cook pasta?" = .ok []) ∧
    MyCustomGeneratorService.generate
        (fun _ => .ok []) (fun _ => "answer") "How to cook pasta?" =
      (.ok noResultsMessage, false) :=
  ⟨rfl, C9_no_results_short_circuit (fun _ => .ok []) (fun _ => "answer")
    "How to cook pasta?" rfl⟩

/-- A source file as presented to the sync run (`{fileName, content}`). -/
structure SyncFile where
  fileName : String
  content : List Char
  deriving DecidableEq, Repr

/-- A parent row as passed to `insertParents` (the store assigns the id). -/
structure ParentRecord where
  sourceFile : String
  parentIndex : ℕ
  content : List Char
  hash : String
  syncedAt : ℕ
  deriving DecidableEq, Repr

/-- The metadata attached to an upserted child document. -/
structure ChildMetadata where
  sourceFile : String
  parentId : ℤ
  parentIndex : ℕ
  childIndex : ℕ
  hash : String
  syncedAt : ℕ
  deriving DecidableEq, Repr

/-- A child document upserted into the vector store (the embedding vector is
attached between `embedBatch` and `addDocuments`; its numeric value plays no
role in any claim and is omitted). -/
structure ChildDoc where
  id : String
  document : List Char
  metadata : ChildMetadata
  deriving DecidableEq, Repr

/-- One store-collaborator call made by the sync engine. `insertParents`
records the identities the store assigned and returned. -/
inductive StoreCall where
  | vectorReset
  | parentDeleteAll
  | getAllSourceFileHashes
  | deleteBySourceFile (sourceFile : String)
  | vectorDeleteDocuments (sourceFile : String)
  | insertParents (records : List ParentRecord) (assigned : List ℤ)
  | embedBatch (texts : List (List Char))
  | addDocuments (docs : List ChildDoc)
  deriving DecidableEq, Repr

/-- The injected dependencies of `syncDocumentsCore`: the chunking service,
the hash function, the clock value, and whether the embedding and upsert
collaborators succeed on a given input (a `false` models the collaborator
throwing, which aborts the run). -/
structure SyncDeps where
  chunk : List Char → List ParentChunkResult
  computeHash : List Char → String
  syncedAt : ℕ
  embedOk : List (List Char) → Bool
  upsertOk : List ChildDoc → Bool

/-- The deterministic child identity
`"chunk:" + sourceFile + ":" + parentId + ":" + childIndex`. -/
def mkChildId (fileName : String) (parentId : ℤ) (childIndex : ℕ) : String :=
  "chunk:" ++ fileName ++ ":" ++ toString parentId ++ ":" ++ toString childIndex

/-- The parent rows built for one file (`chunks.map` in `processFiles`). -/
def parentRecordsFor (deps : SyncDeps) (f : SyncFile) (chunks : List ParentChunkResult) :
    List ParentRecord :=
  chunks.enum.map fun jc =>
    { sourceFile := f.fileName, parentIndex := jc.1, content := jc.2.text,
      hash := deps.computeHash f.content, syncedAt := deps.syncedAt }

/-- The identities a sequential store (SQLite rowids) assigns to `n` freshly
inserted rows, starting at `firstId`. -/
def assignedIds (firstId : ℤ) (n : ℕ) : List ℤ :=
  (List.range n).map fun j => firstId + Int.ofNat j

/-- The child documents built for one file: for parent `j` (assigned
identity `firstId + j`) and child `k`, the id is
`chunk:{fileName}:{parentId}:{k}` with full metadata. -/
def childDocsFor (deps : SyncDeps) (f : SyncFile) (chunks : List ParentChunkResult)
    (firstId : ℤ) : List ChildDoc :=
  chunks.enum.flatMap fun jc =>
    jc.2.children.enum.map fun kc =>
      { id := mkChildId f.fileName (firstId + jc.1) kc.1
        document := kc.2
        metadata := { sourceFile := f.fileName, parentId := firstId + jc.1,
                      parentIndex := jc.1, childIndex := kc.1,
                      hash := deps.computeHash f.content, syncedAt := deps.syncedAt } }

/-- `processFiles` of sync-docs.ts: for each file in order, chunk it (files
producing zero chunks are skipped with a warning), insert the parent rows
obtaining their assigned identities, batch-embed the child texts, and upsert
the child documents.  A collaborator failure aborts the whole loop; the
result is (success, trace of store calls, next store identity). -/
def processFiles (deps : SyncDeps) : List SyncFile → ℤ → Bool × List StoreCall × ℤ
  | [], nextId => (true, [], nextId)
  | f :: rest, nextId =>
    let chunks := deps.chunk f.content
    if chunks.length = 0 then processFiles deps rest nextId
    else
      let records := parentRecordsFor deps f chunks
      let assigned := assignedIds nextId chunks.length
      let docs := childDocsFor deps f chunks nextId
      let texts := docs.map fun d => d.document
      if deps.embedOk texts = false then
        (false, [.insertParents records assigned, .embedBatch texts], nextId + chunks.length)
      else if deps.upsertOk docs = false then
        (false, [.insertParents records assigned, .embedBatch texts, .addDocuments docs],
          nextId + chunks.length)
      else
        let r := processFiles deps rest (nextId + chunks.length)
        (r.1, .insertParents records assigned :: .embedBatch texts ::
          .addDocuments docs :: r.2.1, r.2.2)

/-- `Map.set` with string keys (insertion order preserved, update in
place). -/
def jsMapSet : List (String × String) → String → String → List (String × String)
  | [], k, v => [(k, v)]
  | (k', v') :: rest, k, v =>
    if k' = k then (k', v) :: rest else (k', v') :: jsMapSet rest k v

/-- `new Map(entries)`. -/
def jsMapOfList (entries : List (String × String)) : List (String × String) :=
  entries.foldl (fun m e => jsMapSet m e.1 e.2) []

/-- `Map.get`. -/
def jsMapGet : List (String × String) → String → Option String
  | [], _ => none
  | (k, v) :: rest, q => if k = q then some v else jsMapGet rest q

/-- `Map.delete` (keys are unique in a `Map`, so removing every pair with
the key is the same operation). -/
def jsMapDelete (m : List (String × String)) (k : String) : List (String × String) :=
  m.filter fun e => ¬(e.1 = k)

/-- One iteration of the classification loop of `syncDocumentsCore`: a file
absent from the recorded hashes (JavaScript's `!existingHash` also treats an
empty-string hash as absent) is an add, a present file with a differing hash
is an update, a matching hash is skipped; in each case the file's entry is
removed from the map, so the leftover entries are the deletions.  State:
(filesToAdd, filesToUpdate, remaining map). -/
def classifyStep (computeHash : List Char → String)
    (st : List SyncFile × List SyncFile × List (String × String)) (f : SyncFile) :
    List SyncFile × List SyncFile × List (String × String) :=
  let hash := computeHash f.content
  let au : List SyncFile × List SyncFile :=
    match jsMapGet st.2.2 f.fileName with
    | none => (st.1 ++ [f], st.2.1)
    | some h =>
      if h = "" then (st.1 ++ [f], st.2.1)
      else if ¬(h = hash) then (st.1, st.2.1 ++ [f])
      else (st.1, st.2.1)
  (au.1, au.2, jsMapDelete st.2.2 f.fileName)

/-- The classification loop of `syncDocumentsCore`. -/
def classifyFiles (computeHash : List Char → String) (currentFiles : List SyncFile)
    (m0 : List (String × String)) :
    List SyncFile × List SyncFile × List (String × String) :=
  currentFiles.foldl (classifyStep computeHash) ([], [], m0)

/-- `syncDocumentsCore`: optional reset of both stores, read the recorded
(sourceFile, hash) pairs, classify the current files, delete removed files,
process the adds, delete-then-reprocess the updates.  `existingHashes` is
what `getAllSourceFileHashes` returns and `nextId` the store's next
identity; the result is (success, trace of store calls). -/
def syncDocumentsCore (deps : SyncDeps) (existingHashes : List (String × String))
    (currentFiles : List SyncFile) (reset : Bool) (nextId : ℤ) :
    Bool × List StoreCall :=
  let resetTrace : List StoreCall := if reset then [.vectorReset, .parentDeleteAll] else []
  let st := classifyFiles deps.computeHash currentFiles (jsMapOfList existingHashes)
  let delTrace := (st.2.2.map Prod.fst).flatMap fun s =>
    [StoreCall.deleteBySourceFile s, StoreCall.vectorDeleteDocuments s]
  let r1 := processFiles deps st.1 nextId
  if r1.1 = false then
    (false, resetTrace ++ [StoreCall.getAllSourceFileHashes] ++ delTrace ++ r1.2.1)
  else
    let updDelTrace := st.2.1.flatMap fun f =>
      [StoreCall.deleteBySourceFile f.fileName, StoreCall.vectorDeleteDocuments f.fileName]
    let r2 := processFiles deps st.2.1 r1.2.2
    (r2.1, resetTrace ++ [StoreCall.getAllSourceFileHashes] ++ delTrace ++ r1.2.1 ++
      updDelTrace ++ r2.2.1)

/-- Does a store call touch the given source file (a write or delete naming
it)?  The global calls (`reset`, `deleteAll`, `getAllSourceFileHashes`) are
not per-file calls. -/
def StoreCall.mentionsFile : StoreCall → String → Prop
  | .deleteBySourceFile s, f => s = f
  | .vectorDeleteDocuments s, f => s = f
  | .insertParents records _, f => ∃ r ∈ records, r.sourceFile = f
  | .addDocuments docs, f => ∃ d ∈ docs, d.metadata.sourceFile = f
  | _, _ => False

/-- Is a store call a (re-)insertion of the given file's parents or
children? -/
def StoreCall.isInsertionFor : StoreCall → String → Prop
  | .insertParents records _, f => ∃ r ∈ records, r.sourceFile = f
  | .addDocuments docs, f => ∃ d ∈ docs, d.metadata.sourceFile = f
  | _, _ => False

theorem processFiles_cons_skip {deps : SyncDeps} {f : SyncFile} {rest : List SyncFile}
    {nextId : ℤ} (h0 : (deps.chunk f.content).length = 0) :
    processFiles deps (f :: rest) nextId = processFiles deps rest nextId := by
  simp only [processFiles]
  rw [if_pos h0]

theorem processFiles_cons_embedFail {deps : SyncDeps} {f : SyncFile} {rest : List SyncFile}
    {nextId : ℤ} (h0 : ¬(deps.chunk f.content).length = 0)
    (h1 : deps.embedOk ((childDocsFor deps f (deps.chunk f.content) nextId).map
      fun d => d.document) = false) :
    processFiles deps (f :: rest) nextId =
      (false,
        [StoreCall.insertParents (parentRecordsFor deps f (deps.chunk f.content))
            (assignedIds nextId (deps.chunk f.content).length),
          StoreCall.embedBatch ((childDocsFor deps f (deps.chunk f.content) nextId).map
            fun d => d.document)],
        nextId + (deps.chunk f.content).length) := by
  simp only [processFiles]
  rw [if_neg h0, if_pos h1]

theorem processFiles_cons_upsertFail {deps : SyncDeps} {f : SyncFile} {rest : List SyncFile}
    {nextId : ℤ} (h0 : ¬(deps.chunk f.content).length = 0)
    (h1 : ¬deps.embedOk ((childDocsFor deps f (deps.chunk f.content) nextId).map
      fun d => d.document) = false)
    (h2 : deps.upsertOk (childDocsFor deps f (deps.chunk f.content) nextId) = false) :
    processFiles deps (f :: rest) nextId =
      (false,
        [StoreCall.insertParents (parentRecordsFor deps f (deps.chunk f.content))
            (assignedIds nextId (deps.chunk f.content).length),
          StoreCall.embedBatch ((childDocsFor deps f (deps.chunk f.content) nextId).map
            fun d => d.document),
          StoreCall.addDocuments (childDocsFor deps f (deps.chunk f.content) nextId)],
        nextId + (deps.chunk f.content).length) := by
  simp only [processFiles]
  rw [if_neg h0, if_neg h1, if_pos h2]

theorem processFiles_cons_ok {deps : SyncDeps} {f : SyncFile} {rest : List SyncFile}
    {nextId : ℤ} (h0 : ¬(deps.chunk f.content).length = 0)
    (h1 : ¬deps.embedOk ((childDocsFor deps f (deps.chunk f.content) nextId).map
      fun d => d.document) = false)
    (h2 : ¬deps.upsertOk (childDocsFor deps f (deps.chunk f.content) nextId) = false) :
    processFiles deps (f :: rest) nextId =
      ((processFiles deps rest (nextId + (deps.chunk f.content).length)).1,
        StoreCall.insertParents (parentRecordsFor deps f (deps.chunk f.content))
            (assignedIds nextId (deps.chunk f.content).length) ::
          StoreCall.embedBatch ((childDocsFor deps f (deps.chunk f.content) nextId).map
            fun d => d.document) ::
          StoreCall.addDocuments (childDocsFor deps f (deps.chunk f.content) nextId) ::
          (processFiles deps rest (nextId + (deps.chunk f.content).length)).2.1,
        (processFiles deps rest (nextId + (deps.chunk f.content).length)).2.2) := by
  simp only [processFiles]
  rw [if_neg h0, if_neg h1, if_neg h2]

theorem parentRecordsFor_sourceFile {deps : SyncDeps} {f : SyncFile}
    {chunks : List ParentChunkResult} :
    ∀ r ∈ parentRecordsFor deps f chunks, r.sourceFile = f.fileName := by
  intro r hr
  unfold parentRecordsFor at hr
  obtain ⟨jc, _, rfl⟩ := List.mem_map.mp hr
  rfl

theorem childDocsFor_sourceFile {deps : SyncDeps} {f : SyncFile}
    {chunks : List ParentChunkResult} {firstId : ℤ} :
    ∀ d ∈ childDocsFor deps f chunks firstId, d.metadata.sourceFile = f.fileName := by
  intro d hd
  unfold childDocsFor at hd
  obtain ⟨jc, _, hd2⟩ := List.mem_flatMap.mp hd
  obtain ⟨kc, _, rfl⟩ := List.mem_map.mp hd2
  rfl

/-- Every store call `processFiles` makes is an insertion, an embedding, or
an upsert — never a deletion or a reset (in particular there is no rollback
of already-inserted parents). -/
theorem processFiles_events (deps : SyncDeps) :
    ∀ (files : List SyncFile) (nextId : ℤ),
      ∀ e ∈ (processFiles deps files nextId).2.1,
        (∃ recs asg, e = StoreCall.insertParents recs asg) ∨
        (∃ texts, e = StoreCall.embedBatch texts) ∨
        (∃ docs, e = StoreCall.addDocuments docs) := by
  intro files
  induction files with
  | nil => intro nextId e he; simp [processFiles] at he
  | cons f rest ih =>
    intro nextId e he
    by_cases h0 : (deps.chunk f.content).length = 0
    · rw [processFiles_cons_skip h0] at he
      exact ih _ e he
    · by_cases h1 : deps.embedOk ((childDocsFor deps f (deps.chunk f.content) nextId).map
          fun d => d.document) = false
      · rw [processFiles_cons_embedFail h0 h1] at he
        simp only [List.mem_cons, List.not_mem_nil, or_false] at he
        rcases he with rfl | rfl
        · exact Or.inl ⟨_, _, rfl⟩
        · exact Or.inr (Or.inl ⟨_, rfl⟩)
      · by_cases h2 : deps.upsertOk (childDocsFor deps f (deps.chunk f.content) nextId) = false
        · rw [processFiles_cons_upsertFail h0 h1 h2] at he
          simp only [List.mem_cons, List.not_mem_nil, or_false] at he
          rcases he with rfl | rfl | rfl
          · exact Or.inl ⟨_, _, rfl⟩
          · exact Or.inr (Or.inl ⟨_, rfl⟩)
          · exact Or.inr (Or.inr ⟨_, rfl⟩)
        · rw [processFiles_cons_ok h0 h1 h2] at he
          simp only [List.mem_cons] at he
          rcases he with rfl | rfl | rfl | he
          · exact Or.inl ⟨_, _, rfl⟩
          · exact Or.inr (Or.inl ⟨_, rfl⟩)
          · exact Or.inr (Or.inr ⟨_, rfl⟩)
          · exact ih _ e he

/-- `processFiles` never emits a store call touching a file that is not in
its input list. -/
theorem processFiles_not_mentions (deps : SyncDeps) :
    ∀ (files : List SyncFile) (nextId : ℤ) (name : String),
      name ∉ files.map (fun g => g.fileName) →
      ∀ e ∈ (processFiles deps files nextId).2.1, ¬e.mentionsFile name := by
  intro files
  induction files with
  | nil => intro nextId name _ e he; simp [processFiles] at he
  | cons f rest ih =>
    intro nextId name hname e he
    have hnf : ¬(f.fileName = name) := by
      intro hcontra
      exact hname (by simp [hcontra.symm])
    have hnrest : name ∉ rest.map fun g => g.fileName := by
      intro hcontra
      exact hname (by simp [hcontra])
    have hins : ¬(StoreCall.insertParents (parentRecordsFor deps f (deps.chunk f.content))
        (assignedIds nextId (deps.chunk f.content).length)).mentionsFile name := by
      intro ⟨r, hr, hrs⟩
      exact hnf ((parentRecordsFor_sourceFile r hr) ▸ hrs)
    have hemb : ∀ texts, ¬(StoreCall.embedBatch texts).mentionsFile name := by
      intro texts hcontra
      exact hcontra
    have hadd : ¬(StoreCall.addDocuments
        (childDocsFor deps f (deps.chunk f.content) nextId)).mentionsFile name := by
      intro ⟨d, hd, hds⟩
      exact hnf ((childDocsFor_sourceFile d hd) ▸ hds)
    by_cases h0 : (deps.chunk f.content).length = 0
    · rw [processFiles_cons_skip h0] at he
      exact ih _ name hnrest e he
    · by_cases h1 : deps.embedOk ((childDocsFor deps f (deps.chunk f.content) nextId).map
          fun d => d.document) = false
      · rw [processFiles_cons_embedFail h0 h1] at he
        simp only [List.mem_cons, List.not_mem_nil, or_false] at he
        rcases he with rfl | rfl
        · exact hins
        · exact hemb _
      · by_cases h2 : deps.upsertOk (childDocsFor deps f (deps.chunk f.content) nextId) = false
        · rw [processFiles_cons_upsertFail h0 h1 h2] at he
          simp only [List.mem_cons, List.not_mem_nil, or_false] at he
          rcases he with rfl | rfl | rfl
          · exact hins
          · exact hemb _
          · exact hadd
        · rw [processFiles_cons_ok h0 h1 h2] at he
          simp only [List.mem_cons] at he
          rcases he with rfl | rfl | rfl | he
          · exact hins
          · exact hemb _
          · exact hadd
          · exact ih _ name hnrest e he

/-- For a file with nonempty chunking in a successfully processed list with
unique names, the trace of `processFiles` contains exactly one block for the
file: its `insertParents` (returning the assigned identities), immediately
followed by the batch embedding of its child texts and the upsert of its
child documents; no other call in the trace touches the file. -/
theorem processFiles_block (deps : SyncDeps) :
    ∀ (files : List SyncFile) (nextId : ℤ) (f : SyncFile),
      (files.map fun g => g.fileName).Nodup →
      f ∈ files →
      ¬(deps.chunk f.content).length = 0 →
      (processFiles deps files nextId).1 = true →
      ∃ (firstId : ℤ) (t1 t2 : List StoreCall),
        (processFiles deps files nextId).2.1 =
          t1 ++ StoreCall.insertParents (parentRecordsFor deps f (deps.chunk f.content))
              (assignedIds firstId (deps.chunk f.content).length) ::
            StoreCall.embedBatch ((childDocsFor deps f (deps.chunk f.content) firstId).map
              fun d => d.document) ::
            StoreCall.addDocuments (childDocsFor deps f (deps.chunk f.content) firstId) :: t2 ∧
        (∀ e ∈ t1, ¬e.mentionsFile f.fileName) ∧
        (∀ e ∈ t2, ¬e.mentionsFile f.fileName) := by
  intro files
  induction files with
  | nil => intro nextId f _ hf; cases hf
  | cons g rest ih =>
    intro nextId f hnodup hf hchunks hsucc
    have hnodup' : (rest.map fun x => x.fileName).Nodup := (List.nodup_cons.mp hnodup).2
    have hgnotin : g.fileName ∉ rest.map fun x => x.fileName := (List.nodup_cons.mp hnodup).1
    by_cases h0 : (deps.chunk g.content).length = 0
    · rw [processFiles_cons_skip h0] at hsucc ⊢
      rcases List.mem_cons.mp hf with rfl | hf'
      · exact absurd h0 hchunks
      · exact ih _ f hnodup' hf' hchunks hsucc
    · by_cases h1 : deps.embedOk ((childDocsFor deps g (deps.chunk g.content) nextId).map
          fun d => d.document) = false
      · rw [processFiles_cons_embedFail h0 h1] at hsucc
        cases hsucc
      · by_cases h2 : deps.upsertOk (childDocsFor deps g (deps.chunk g.content) nextId) = false
        · rw [processFiles_cons_upsertFail h0 h1 h2] at hsucc
          cases hsucc
        · rw [processFiles_cons_ok h0 h1 h2] at hsucc ⊢
          rcases List.mem_cons.mp hf with rfl | hf'
          · refine ⟨nextId, [],
              (processFiles deps rest (nextId + (deps.chunk f.content).length)).2.1,
              rfl, ?_, ?_⟩
            · intro e he; cases he
            · exact fun e he => processFiles_not_mentions deps rest _ f.fileName hgnotin e he
          · have hfn : ¬(g.fileName = f.fileName) := by
              intro hcontra
              exact hgnotin (hcontra ▸ List.mem_map.mpr ⟨f, hf', rfl⟩)
            obtain ⟨firstId, t1, t2, htr, ht1, ht2⟩ :=
              ih (nextId + (deps.chunk g.content).length) f hnodup' hf' hchunks hsucc
            refine ⟨firstId,
              StoreCall.insertParents (parentRecordsFor deps g (deps.chunk g.content))
                  (assignedIds nextId (deps.chunk g.content).length) ::
                StoreCall.embedBatch ((childDocsFor deps g (deps.chunk g.content) nextId).map
                  fun d => d.document) ::
                StoreCall.addDocuments (childDocsFor deps g (deps.chunk g.content) nextId) ::
                t1,
              t2, ?_, ?_, ht2⟩
            · simp [htr]
            · intro e he
              rcases List.mem_cons.mp he with rfl | he
              · intro hm
                obtain ⟨r, hr, hrs⟩ := hm
                exact hfn ((parentRecordsFor_sourceFile r hr) ▸ hrs)
              rcases List.mem_cons.mp he with rfl | he
              · intro hcontra; exact hcontra
              rcases List.mem_cons.mp he with rfl | he
              · intro hm
                obtain ⟨d, hd, hds⟩ := hm
                exact hfn ((childDocsFor_sourceFile d hd) ▸ hds)
              · exact ht1 e he

theorem jsMapGet_delete_other {m : List (String × String)} {k q : String} (h : ¬q = k) :
    jsMapGet (jsMapDelete m k) q = jsMapGet m q := by
  induction m with
  | nil => rfl
  | cons e rest ih =>
    obtain ⟨k', v'⟩ := e
    by_cases hk : k' = k
    · subst hk
      have : jsMapDelete ((k', v') :: rest) k' = jsMapDelete rest k' := by
        simp [jsMapDelete]
      rw [this, ih]
      have hq : ¬(k' = q) := fun hc => h hc.symm
      simp [jsMapGet, hq]
    · have : jsMapDelete ((k', v') :: rest) k = (k', v') :: jsMapDelete rest k := by
        simp [jsMapDelete, hk]
      rw [this]
      by_cases hq : k' = q
      · simp [jsMapGet, hq]
      · simp [jsMapGet, hq, ih]

theorem not_mem_jsMapDelete_keys (m : List (String × String)) (k : String) :
    k ∉ (jsMapDelete m k).map Prod.fst := by
  intro h
  obtain ⟨e, he, heq⟩ := List.mem_map.mp h
  have hp := List.of_mem_filter he
  rw [heq] at hp
  simp at hp

theorem jsMapDelete_keys_subset {m : List (String × String)} {k q : String}
    (h : q ∈ (jsMapDelete m k).map Prod.fst) : q ∈ m.map Prod.fst := by
  obtain ⟨e, he, heq⟩ := List.mem_map.mp h
  exact heq ▸ List.mem_map.mpr ⟨e, List.mem_of_mem_filter he, rfl⟩

theorem classifyStep_map (ch : List Char → String)
    (st : List SyncFile × List SyncFile × List (String × String)) (g : SyncFile) :
    (classifyStep ch st g).2.2 = jsMapDelete st.2.2 g.fileName := rfl

theorem classifyStep_add {ch : List Char → String}
    {st : List SyncFile × List SyncFile × List (String × String)} {g : SyncFile}
    (h : jsMapGet st.2.2 g.fileName = none ∨ jsMapGet st.2.2 g.fileName = some "") :
    classifyStep ch st g = (st.1 ++ [g], st.2.1, jsMapDelete st.2.2 g.fileName) := by
  unfold classifyStep
  rcases h with h | h <;> rw [h]
  simp

theorem classifyStep_update {ch : List Char → String}
    {st : List SyncFile × List SyncFile × List (String × String)} {g : SyncFile} {h : String}
    (hget : jsMapGet st.2.2 g.fileName = some h) (hne : ¬(h = ""))
    (hdiff : ¬(h = ch g.content)) :
    classifyStep ch st g = (st.1, st.2.1 ++ [g], jsMapDelete st.2.2 g.fileName) := by
  unfold classifyStep
  rw [hget]
  simp [hne, hdiff]

theorem classifyStep_skip {ch : List Char → String}
    {st : List SyncFile × List SyncFile × List (String × String)} {g : SyncFile}
    (hget : jsMapGet st.2.2 g.fileName = some (ch g.content)) (hne : ¬(ch g.content = "")) :
    classifyStep ch st g = (st.1, st.2.1, jsMapDelete st.2.2 g.fileName) := by
  unfold classifyStep
  rw [hget]
  simp [hne]

/-- The classification fold only ever appends to the add and update lists;
what it appends is a sublist of its input files. -/
theorem classify_foldl_prefix (ch : List Char → String) :
    ∀ (files : List SyncFile) (a u : List SyncFile) (m : List (String × String)),
      ∃ ea eu, (files.foldl (classifyStep ch) (a, u, m)).1 = a ++ ea ∧
        (files.foldl (classifyStep ch) (a, u, m)).2.1 = u ++ eu ∧
        ea.Sublist files ∧ eu.Sublist files := by
  intro files
  induction files with
  | nil => intro a u m; exact ⟨[], [], by simp, by simp, by simp, by simp⟩
  | cons g rest ih =>
    intro a u m
    rw [List.foldl_cons]
    have hcases : (classifyStep ch (a, u, m) g = (a ++ [g], u, jsMapDelete m g.fileName)) ∨
        (classifyStep ch (a, u, m) g = (a, u ++ [g], jsMapDelete m g.fileName)) ∨
        (classifyStep ch (a, u, m) g = (a, u, jsMapDelete m g.fileName)) := by
      unfold classifyStep
      cases jsMapGet m g.fileName with
      | none => exact Or.inl rfl
      | some h =>
        by_cases h1 : h = ""
        · exact Or.inl (by simp [h1])
        · by_cases h2 : h = ch g.content
          · exact Or.inr (Or.inr (by subst h2; simp [h1]))
          · exact Or.inr (Or.inl (by simp [h1, h2]))
    rcases hcases with hc | hc | hc <;> rw [hc]
    · obtain ⟨ea, eu, h1, h2, h3, h4⟩ := ih (a ++ [g]) u (jsMapDelete m g.fileName)
      exact ⟨g :: ea, eu, by rw [h1]; simp, h2,
        List.Sublist.cons₂ g h3, List.Sublist.cons g h4⟩
    · obtain ⟨ea, eu, h1, h2, h3, h4⟩ := ih a (u ++ [g]) (jsMapDelete m g.fileName)
      exact ⟨ea, g :: eu, h1, by rw [h2]; simp,
        List.Sublist.cons g h3, List.Sublist.cons₂ g h4⟩
    · obtain ⟨ea, eu, h1, h2, h3, h4⟩ := ih a u (jsMapDelete m g.fileName)
      exact ⟨ea, eu, h1, h2, List.Sublist.cons g h3, List.Sublist.cons g h4⟩

/-- The leftover map keys of the classification fold come from the initial
map. -/
theorem classify_foldl_keys (ch : List Char → String) :
    ∀ (files : List SyncFile) (a u : List SyncFile) (m : List (String × String)) (k : String),
      k ∈ (files.foldl (classifyStep ch) (a, u, m)).2.2.map Prod.fst →
      k ∈ m.map Prod.fst := by
  intro files
  induction files with
  | nil => intro a u m k hk; exact hk
  | cons g rest ih =>
    intro a u m k hk
    rw [List.foldl_cons] at hk
    have hst : (classifyStep ch (a, u, m) g) =
        ((classifyStep ch (a, u, m) g).1, (classifyStep ch (a, u, m) g).2.1,
          jsMapDelete m g.fileName) := by
      rw [← classifyStep_map ch (a, u, m) g]
    rw [hst] at hk
    exact jsMapDelete_keys_subset (ih _ _ _ k hk)

theorem classifyStep_cases (ch : List Char → String) (a u : List SyncFile)
    (m : List (String × String)) (g : SyncFile) :
    classifyStep ch (a, u, m) g = (a ++ [g], u, jsMapDelete m g.fileName) ∨
    classifyStep ch (a, u, m) g = (a, u ++ [g], jsMapDelete m g.fileName) ∨
    classifyStep ch (a, u, m) g = (a, u, jsMapDelete m g.fileName) := by
  unfold classifyStep
  cases jsMapGet m g.fileName with
  | none => exact Or.inl rfl
  | some h =>
    by_cases h1 : h = ""
    · exact Or.inl (by simp [h1])
    · by_cases h2 : h = ch g.content
      · exact Or.inr (Or.inr (by subst h2; simp [h1]))
      · exact Or.inr (Or.inl (by simp [h1, h2]))

/-- Placement of one file by the classification loop, according to its
recorded-hash lookup: absent — or the empty string, which JavaScript's
falsiness check treats as absent — goes to the adds; a differing hash goes
to the updates; a matching hash goes nowhere.  In every case the file's key
leaves the map, so it is not among the files to delete. -/
theorem classify_foldl_place (ch : List Char → String) :
    ∀ (files : List SyncFile) (a u : List SyncFile) (m : List (String × String))
      (f : SyncFile),
      (files.map fun g => g.fileName).Nodup →
      f ∈ files →
      (f.fileName ∉ a.map fun x => x.fileName) →
      (f.fileName ∉ u.map fun x => x.fileName) →
      ((jsMapGet m f.fileName = none ∨ jsMapGet m f.fileName = some "") →
        f ∈ (files.foldl (classifyStep ch) (a, u, m)).1 ∧
        (f.fileName ∉ (files.foldl (classifyStep ch) (a, u, m)).2.1.map
          fun g => g.fileName) ∧
        f.fileName ∉ (files.foldl (classifyStep ch) (a, u, m)).2.2.map Prod.fst) ∧
      (∀ h, jsMapGet m f.fileName = some h → ¬(h = "") → ¬(h = ch f.content) →
        f ∈ (files.foldl (classifyStep ch) (a, u, m)).2.1 ∧
        (f.fileName ∉ (files.foldl (classifyStep ch) (a, u, m)).1.map
          fun g => g.fileName) ∧
        f.fileName ∉ (files.foldl (classifyStep ch) (a, u, m)).2.2.map Prod.fst) ∧
      (jsMapGet m f.fileName = some (ch f.content) → ¬(ch f.content = "") →
        (f.fileName ∉ (files.foldl (classifyStep ch) (a, u, m)).1.map
          fun g => g.fileName) ∧
        (f.fileName ∉ (files.foldl (classifyStep ch) (a, u, m)).2.1.map
          fun g => g.fileName) ∧
        f.fileName ∉ (files.foldl (classifyStep ch) (a, u, m)).2.2.map Prod.fst) := by
  intro files
  induction files with
  | nil => intro a u m f _ hf; cases hf
  | cons g rest ih =>
    intro a u m f hnodup hf hna hnu
    have hnodup' : (rest.map fun x => x.fileName).Nodup := (List.nodup_cons.mp hnodup).2
    have hgnotin : g.fileName ∉ rest.map fun x => x.fileName := (List.nodup_cons.mp hnodup).1
    rw [List.foldl_cons]
    rcases List.mem_cons.mp hf with rfl | hf'
    · have hkeys : ∀ (a' u' : List SyncFile),
          f.fileName ∉
            (rest.foldl (classifyStep ch) (a', u', jsMapDelete m f.fileName)).2.2.map
              Prod.fst :=
        fun a' u' hmem => not_mem_jsMapDelete_keys m f.fileName
          (classify_foldl_keys ch rest a' u' _ _ hmem)
      have hnotrest : ∀ {eu : List SyncFile}, eu.Sublist rest →
          f.fileName ∉ eu.map fun x => x.fileName := by
        intro eu hsub hmem
        obtain ⟨x, hx, hxe⟩ := List.mem_map.mp hmem
        exact hgnotin (hxe ▸ List.mem_map.mpr ⟨x, hsub.subset hx, rfl⟩)
      refine ⟨?_, ?_, ?_⟩
      · intro hget
        rw [@classifyStep_add _ (a, u, m) _ hget]
        obtain ⟨ea, eu, h1, h2, h3, h4⟩ := classify_foldl_prefix ch rest (a ++ [f]) u _
        refine ⟨?_, ?_, hkeys _ _⟩
        · rw [h1]
          exact List.mem_append.mpr (Or.inl (List.mem_append.mpr (Or.inr (by simp))))
        · rw [h2, List.map_append]
          intro hmem
          rcases List.mem_append.mp hmem with hmem | hmem
          · exact hnu hmem
          · exact hnotrest h4 hmem
      · intro h hget hne hdiff
        rw [@classifyStep_update _ (a, u, m) _ _ hget hne hdiff]
        obtain ⟨ea, eu, h1, h2, h3, h4⟩ := classify_foldl_prefix ch rest a (u ++ [f]) _
        refine ⟨?_, ?_, hkeys _ _⟩
        · rw [h2]
          exact List.mem_append.mpr (Or.inl (List.mem_append.mpr (Or.inr (by simp))))
        · rw [h1, List.map_append]
          intro hmem
          rcases List.mem_append.mp hmem with hmem | hmem
          · exact hna hmem
          · exact hnotrest h3 hmem
      · intro hget hne
        rw [@classifyStep_skip _ (a, u, m) _ hget hne]
        obtain ⟨ea, eu, h1, h2, h3, h4⟩ := classify_foldl_prefix ch rest a u _
        refine ⟨?_, ?_, hkeys _ _⟩
        · rw [h1, List.map_append]
          intro hmem
          rcases List.mem_append.mp hmem with hmem | hmem
          · exact hna hmem
          · exact hnotrest h3 hmem
        · rw [h2, List.map_append]
          intro hmem
          rcases List.mem_append.mp hmem with hmem | hmem
          · exact hnu hmem
          · exact hnotrest h4 hmem
    · have hfg : ¬(f.fileName = g.fileName) := by
        intro hc
        exact hgnotin (hc ▸ List.mem_map.mpr ⟨f, hf', rfl⟩)
      have hget' : jsMapGet (jsMapDelete m g.fileName) f.fileName = jsMapGet m f.fileName :=
        jsMapGet_delete_other hfg
      have hna2 : f.fileName ∉ (a ++ [g]).map fun x => x.fileName := by
        rw [List.map_append]
        intro hmem
        rcases List.mem_append.mp hmem with hmem | hmem
        · exact hna hmem
        · simp at hmem
          exact hfg hmem
      have hnu2 : f.fileName ∉ (u ++ [g]).map fun x => x.fileName := by
        rw [List.map_append]
        intro hmem
        rcases List.mem_append.mp hmem with hmem | hmem
        · exact hnu hmem
        · simp at hmem
          exact hfg hmem
      rcases classifyStep_cases ch a u m g with hc | hc | hc
      · rw [hc, ← hget']
        exact ih _ _ _ f hnodup' hf' hna2 hnu
      · rw [hc, ← hget']
        exact ih _ _ _ f hnodup' hf' hna hnu2
      · rw [hc, ← hget']
        exact ih _ _ _ f hnodup' hf' hna hnu

theorem count_deleteBySourceFile_pairTrace (keys : List String) (name : String) :
    (keys.flatMap fun s => [StoreCall.deleteBySourceFile s,
        StoreCall.vectorDeleteDocuments s]).count (StoreCall.deleteBySourceFile name) =
      keys.count name := by
  induction keys with
  | nil => rfl
  | cons k rest ih =>
    rw [List.flatMap_cons, List.count_append, ih]
    simp [List.count_cons, Nat.add_comm]

theorem count_vectorDeleteDocuments_pairTrace (keys : List String) (name : String) :
    (keys.flatMap fun s => [StoreCall.deleteBySourceFile s,
        StoreCall.vectorDeleteDocuments s]).count (StoreCall.vectorDeleteDocuments name) =
      keys.count name := by
  induction keys with
  | nil => rfl
  | cons k rest ih =>
    rw [List.flatMap_cons, List.count_append, ih]
    simp [List.count_cons, Nat.add_comm]

theorem updates_pairTrace_eq (updates : List SyncFile) :
    (updates.flatMap fun f => [StoreCall.deleteBySourceFile f.fileName,
        StoreCall.vectorDeleteDocuments f.fileName]) =
      ((updates.map fun f => f.fileName).flatMap fun s =>
        [StoreCall.deleteBySourceFile s, StoreCall.vectorDeleteDocuments s]) := by
  induction updates with
  | nil => rfl
  | cons g rest ih => simp [ih]

theorem syncDocumentsCore_eq_fail {deps : SyncDeps} {existingHashes : List (String × String)}
    {currentFiles : List SyncFile} {reset : Bool} {nextId : ℤ}
    (h : (processFiles deps (classifyFiles deps.computeHash currentFiles
        (jsMapOfList existingHashes)).1 nextId).1 = false) :
    syncDocumentsCore deps existingHashes currentFiles reset nextId =
      (false,
        (if reset then [StoreCall.vectorReset, StoreCall.parentDeleteAll] else []) ++
          [StoreCall.getAllSourceFileHashes] ++
          (((classifyFiles deps.computeHash currentFiles
              (jsMapOfList existingHashes)).2.2.map Prod.fst).flatMap fun s =>
            [StoreCall.deleteBySourceFile s, StoreCall.vectorDeleteDocuments s]) ++
          (processFiles deps (classifyFiles deps.computeHash currentFiles
            (jsMapOfList existingHashes)).1 nextId).2.1) := by
  unfold syncDocumentsCore
  rw [if_pos h]

theorem syncDocumentsCore_eq_ok {deps : SyncDeps} {existingHashes : List (String × String)}
    {currentFiles : List SyncFile} {reset : Bool} {nextId : ℤ}
    (h : ¬(processFiles deps (classifyFiles deps.computeHash currentFiles
        (jsMapOfList existingHashes)).1 nextId).1 = false) :
    syncDocumentsCore deps existingHashes currentFiles reset nextId =
      ((processFiles deps (classifyFiles deps.computeHash currentFiles
          (jsMapOfList existingHashes)).2.1
          (processFiles deps (classifyFiles deps.computeHash currentFiles
            (jsMapOfList existingHashes)).1 nextId).2.2).1,
        (if reset then [StoreCall.vectorReset, StoreCall.parentDeleteAll] else []) ++
          [StoreCall.getAllSourceFileHashes] ++
          (((classifyFiles deps.computeHash currentFiles
              (jsMapOfList existingHashes)).2.2.map Prod.fst).flatMap fun s =>
            [StoreCall.deleteBySourceFile s, StoreCall.vectorDeleteDocuments s]) ++
          (processFiles deps (classifyFiles deps.computeHash currentFiles
            (jsMapOfList existingHashes)).1 nextId).2.1 ++
          ((classifyFiles deps.computeHash currentFiles
              (jsMapOfList existingHashes)).2.1.flatMap fun f =>
            [StoreCall.deleteBySourceFile f.fileName,
              StoreCall.vectorDeleteDocuments f.fileName]) ++
          (processFiles deps (classifyFiles deps.computeHash currentFiles
              (jsMapOfList existingHashes)).2.1
            (processFiles deps (classifyFiles deps.computeHash currentFiles
              (jsMapOfList existingHashes)).1 nextId).2.2).2.1) := by
  unfold syncDocumentsCore
  rw [if_neg h]

theorem resetTrace_not_mentions {reset : Bool} {name : String} :
    ∀ e ∈ (if reset then [StoreCall.vectorReset, StoreCall.parentDeleteAll] else []),
      ¬e.mentionsFile name := by
  cases reset
  · intro e he; cases he
  · intro e he
    simp only [if_pos, List.mem_cons, List.not_mem_nil, or_false] at he
    rcases he with rfl | rfl
    · exact id
    · exact id

theorem pairTrace_not_mentions {keys : List String} {name : String} (h : name ∉ keys) :
    ∀ e ∈ (keys.flatMap fun s => [StoreCall.deleteBySourceFile s,
      StoreCall.vectorDeleteDocuments s]), ¬e.mentionsFile name := by
  intro e he
  obtain ⟨k, hk, he2⟩ := List.mem_flatMap.mp he
  have hkname : ¬(k = name) := fun hc => h (hc ▸ hk)
  simp only [List.mem_cons, List.not_mem_nil, or_false] at he2
  rcases he2 with rfl | rfl
  · exact hkname
  · exact hkname

theorem isInsertionFor_mentions {e : StoreCall} {name : String}
    (h : e.isInsertionFor name) : e.mentionsFile name := by
  cases e <;> first | exact h | exact h.elim

/-- C4: in a sync run over uniquely named current files, a file whose
content hash matches its recorded (nonempty) hash triggers no per-file
store call at all; and in a run whose collaborators succeed, a file whose
hash differs triggers exactly one `deleteBySourceFile` and exactly one
vector-store delete-by-filter, both occurring before any re-insertion of
that file's parents or children.  (A cryptographic digest is never the
empty string; JavaScript's falsiness check would reclassify an empty
recorded hash as an add.) -/
theorem C4_unchanged_skip_changed_delete_first
    (deps : SyncDeps) (existingHashes : List (String × String))
    (currentFiles : List SyncFile) (reset : Bool) (nextId : ℤ) (f : SyncFile)
    (hnodup : (currentFiles.map fun g => g.fileName).Nodup)
    (hf : f ∈ currentFiles) :
    ((jsMapGet (jsMapOfList existingHashes) f.fileName =
        some (deps.computeHash f.content) →
      ¬(deps.computeHash f.content = "") →
      ∀ e ∈ (syncDocumentsCore deps existingHashes currentFiles reset nextId).2,
        ¬e.mentionsFile f.fileName)) ∧
    (∀ h, jsMapGet (jsMapOfList existingHashes) f.fileName = some h → ¬(h = "") →
      ¬(h = deps.computeHash f.content) →
      (syncDocumentsCore deps existingHashes currentFiles reset nextId).1 = true →
      ∃ pre post,
        (syncDocumentsCore deps existingHashes currentFiles reset nextId).2 = pre ++ post ∧
        pre.count (StoreCall.deleteBySourceFile f.fileName) = 1 ∧
        pre.count (StoreCall.vectorDeleteDocuments f.fileName) = 1 ∧
        (∀ e ∈ pre, ¬e.isInsertionFor f.fileName) ∧
        (∀ e ∈ post, ¬(e = StoreCall.deleteBySourceFile f.fileName) ∧
          ¬(e = StoreCall.vectorDeleteDocuments f.fileName))) := by
  have hplace := classify_foldl_place deps.computeHash currentFiles [] []
    (jsMapOfList existingHashes) f hnodup hf (by simp) (by simp)
  have hcf : currentFiles.foldl (classifyStep deps.computeHash)
      ([], [], jsMapOfList existingHashes) =
      classifyFiles deps.computeHash currentFiles (jsMapOfList existingHashes) := rfl
  rw [hcf] at hplace
  constructor
  · intro hget hne
    obtain ⟨hA1, hA2, hA3⟩ := hplace.2.2 hget hne
    intro e he
    by_cases hr1 : (processFiles deps (classifyFiles deps.computeHash currentFiles
        (jsMapOfList existingHashes)).1 nextId).1 = false
    · rw [syncDocumentsCore_eq_fail hr1] at he
      rcases List.mem_append.mp he with he | he
      rcases List.mem_append.mp he with he | he
      rcases List.mem_append.mp he with he | he
      · exact resetTrace_not_mentions e he
      · simp only [List.mem_singleton] at he
        subst he
        exact id
      · exact pairTrace_not_mentions hA3 e he
      · exact processFiles_not_mentions deps _ _ _ hA1 e he
    · rw [syncDocumentsCore_eq_ok hr1] at he
      rcases List.mem_append.mp he with he | he
      rcases List.mem_append.mp he with he | he
      rcases List.mem_append.mp he with he | he
      rcases List.mem_append.mp he with he | he
      rcases List.mem_append.mp he with he | he
      · exact resetTrace_not_mentions e he
      · simp only [List.mem_singleton] at he
        subst he
        exact id
      · exact pairTrace_not_mentions hA3 e he
      · exact processFiles_not_mentions deps _ _ _ hA1 e he
      · rw [updates_pairTrace_eq] at he
        exact pairTrace_not_mentions hA2 e he
      · exact processFiles_not_mentions deps _ _ _ hA2 e he
  · intro h hget hne hdiff hsucc
    obtain ⟨hB1, hB2, hB3⟩ := hplace.2.1 h hget hne hdiff
    by_cases hr1 : (processFiles deps (classifyFiles deps.computeHash currentFiles
        (jsMapOfList existingHashes)).1 nextId).1 = false
    · rw [syncDocumentsCore_eq_fail hr1] at hsucc
      simp at hsucc
    · have hmemname : f.fileName ∈ (classifyFiles deps.computeHash currentFiles
          (jsMapOfList existingHashes)).2.1.map fun g => g.fileName :=
        List.mem_map.mpr ⟨f, hB1, rfl⟩
      have hupnodup : ((classifyFiles deps.computeHash currentFiles
          (jsMapOfList existingHashes)).2.1.map fun g => g.fileName).Nodup := by
        obtain ⟨ea, eu, hea, heu, hsa, hsu⟩ := classify_foldl_prefix deps.computeHash
          currentFiles [] [] (jsMapOfList existingHashes)
        rw [hcf] at heu
        rw [heu]
        simpa using hnodup.sublist (hsu.map fun g => g.fileName)
      have hcount1 : ((classifyFiles deps.computeHash currentFiles
            (jsMapOfList existingHashes)).2.1.flatMap fun g =>
            [StoreCall.deleteBySourceFile g.fileName,
              StoreCall.vectorDeleteDocuments g.fileName]).count
          (StoreCall.deleteBySourceFile f.fileName) = 1 := by
        rw [updates_pairTrace_eq, count_deleteBySourceFile_pairTrace]
        exact List.count_eq_one_of_mem hupnodup hmemname
      have hcount2 : ((classifyFiles deps.computeHash currentFiles
            (jsMapOfList existingHashes)).2.1.flatMap fun g =>
            [StoreCall.deleteBySourceFile g.fileName,
              StoreCall.vectorDeleteDocuments g.fileName]).count
          (StoreCall.vectorDeleteDocuments f.fileName) = 1 := by
        rw [updates_pairTrace_eq, count_vectorDeleteDocuments_pairTrace]
        exact List.count_eq_one_of_mem hupnodup hmemname
      have hresetcount : ∀ c : StoreCall,
          ¬(c = StoreCall.vectorReset) → ¬(c = StoreCall.parentDeleteAll) →
          (if reset then [StoreCall.vectorReset, StoreCall.parentDeleteAll]
            else ([] : List StoreCall)).count c = 0 := by
        intro c hc1 hc2
        apply List.count_eq_zero_of_not_mem
        intro hmem
        cases reset
        · cases hmem
        · simp only [if_pos, List.mem_cons, List.not_mem_nil, or_false] at hmem
          rcases hmem with rfl | rfl
          · exact hc1 rfl
          · exact hc2 rfl
      have htr1count : ∀ c : StoreCall,
          (∀ recs asg, ¬(c = StoreCall.insertParents recs asg)) →
          (∀ texts, ¬(c = StoreCall.embedBatch texts)) →
          (∀ docs, ¬(c = StoreCall.addDocuments docs)) →
          ((processFiles deps (classifyFiles deps.computeHash currentFiles
            (jsMapOfList existingHashes)).1 nextId).2.1).count c = 0 := by
        intro c h1 h2 h3
        apply List.count_eq_zero_of_not_mem
        intro hmem
        rcases processFiles_events deps _ _ c hmem with ⟨recs, asg, hh⟩ | ⟨texts, hh⟩ |
          ⟨docs, hh⟩
        · exact h1 recs asg hh
        · exact h2 texts hh
        · exact h3 docs hh
      have hkeyscount : ∀ (name : String),
          name ∉ (classifyFiles deps.computeHash currentFiles
            (jsMapOfList existingHashes)).2.2.map Prod.fst →
          ((((classifyFiles deps.computeHash currentFiles
              (jsMapOfList existingHashes)).2.2.map Prod.fst).flatMap fun s =>
            [StoreCall.deleteBySourceFile s,
              StoreCall.vectorDeleteDocuments s]).count
              (StoreCall.deleteBySourceFile name) = 0 ∧
           (((classifyFiles deps.computeHash currentFiles
              (jsMapOfList existingHashes)).2.2.map Prod.fst).flatMap fun s =>
            [StoreCall.deleteBySourceFile s,
              StoreCall.vectorDeleteDocuments s]).count
              (StoreCall.vectorDeleteDocuments name) = 0) := by
        intro name hname
        rw [count_deleteBySourceFile_pairTrace, count_vectorDeleteDocuments_pairTrace]
        exact ⟨List.count_eq_zero_of_not_mem hname, List.count_eq_zero_of_not_mem hname⟩
      rw [syncDocumentsCore_eq_ok hr1]
      refine ⟨_, _, rfl, ?_, ?_, ?_, ?_⟩
      · rw [List.count_append, List.count_append, List.count_append, List.count_append,
          hcount1, (hkeyscount f.fileName hB3).1,
          hresetcount _ (by simp) (by simp),
          htr1count _ (fun _ _ => by simp) (fun _ => by simp) (fun _ => by simp)]
        rfl
      · rw [List.count_append, List.count_append, List.count_append, List.count_append,
          hcount2, (hkeyscount f.fileName hB3).2,
          hresetcount _ (by simp) (by simp),
          htr1count _ (fun _ _ => by simp) (fun _ => by simp) (fun _ => by simp)]
        rfl
      · intro e he
        rcases List.mem_append.mp he with he | he
        rcases List.mem_append.mp he with he | he
        rcases List.mem_append.mp he with he | he
        rcases List.mem_append.mp he with he | he
        · intro hc
          exact resetTrace_not_mentions e he (isInsertionFor_mentions hc)
        · simp only [List.mem_singleton] at he
          subst he
          exact id
        · intro hc
          exact pairTrace_not_mentions hB3 e he (isInsertionFor_mentions hc)
        · intro hc
          exact processFiles_not_mentions deps _ _ _ hB2 e he (isInsertionFor_mentions hc)
        · intro hc
          obtain ⟨g, hg, he2⟩ := List.mem_flatMap.mp he
          simp only [List.mem_cons, List.not_mem_nil, or_false] at he2
          rcases he2 with rfl | rfl <;> exact hc
      · intro e he
        rcases processFiles_events deps _ _ e he with ⟨recs, asg, rfl⟩ | ⟨texts, rfl⟩ |
          ⟨docs, rfl⟩
        · exact ⟨by simp, by simp⟩
        · exact ⟨by simp, by simp⟩
        · exact ⟨by simp, by simp⟩

theorem mem_enum_fst_lt {α : Type} {x : ℕ × α} {l : List α} (h : x ∈ l.enum) :
    x.1 < l.length := by
  have h2 := List.mem_enum_iff_getElem?.mp h
  exact (List.getElem?_eq_some.mp h2).1

/-- C3: a file classified as add (no recorded hash for its name —
JavaScript's falsiness check also treats an empty recorded hash as absent)
whose chunking is nonempty yields, in a successful run, exactly one
`insertParents` call carrying all of the file's parent records together
with the assigned identities, immediately followed by the batch embedding
of its child texts and the upsert of its child documents — so the parent
identities are obtained before any child of the file is upserted — and
every upserted child of the file carries the composite id
`chunk:{file}:{parentId}:{childIndex}` with its parent identity among the
assigned ones.  No other call of the run touches the file. -/
theorem C3_add_inserts_parents_then_children
    (deps : SyncDeps) (existingHashes : List (String × String))
    (currentFiles : List SyncFile) (reset : Bool) (nextId : ℤ) (f : SyncFile)
    (hnodup : (currentFiles.map fun g => g.fileName).Nodup)
    (hf : f ∈ currentFiles)
    (hadd : jsMapGet (jsMapOfList existingHashes) f.fileName = none ∨
      jsMapGet (jsMapOfList existingHashes) f.fileName = some "")
    (hchunks : ¬(deps.chunk f.content).length = 0)
    (hsucc : (syncDocumentsCore deps existingHashes currentFiles reset nextId).1 = true) :
    ∃ (firstId : ℤ) (t1 t2 : List StoreCall),
      (syncDocumentsCore deps existingHashes currentFiles reset nextId).2 =
        t1 ++ StoreCall.insertParents (parentRecordsFor deps f (deps.chunk f.content))
            (assignedIds firstId (deps.chunk f.content).length) ::
          StoreCall.embedBatch ((childDocsFor deps f (deps.chunk f.content) firstId).map
            fun d => d.document) ::
          StoreCall.addDocuments (childDocsFor deps f (deps.chunk f.content) firstId) ::
          t2 ∧
      (∀ e ∈ t1, ¬e.mentionsFile f.fileName) ∧
      (∀ e ∈ t2, ¬e.mentionsFile f.fileName) ∧
      ∀ d ∈ childDocsFor deps f (deps.chunk f.content) firstId,
        d.id = mkChildId f.fileName d.metadata.parentId d.metadata.childIndex ∧
        d.metadata.parentId ∈ assignedIds firstId (deps.chunk f.content).length := by
  have hplace := classify_foldl_place deps.computeHash currentFiles [] []
    (jsMapOfList existingHashes) f hnodup hf (by simp) (by simp)
  have hcf : currentFiles.foldl (classifyStep deps.computeHash)
      ([], [], jsMapOfList existingHashes) =
      classifyFiles deps.computeHash currentFiles (jsMapOfList existingHashes) := rfl
  rw [hcf] at hplace
  obtain ⟨hC1, hC2, hC3⟩ := hplace.1 hadd
  by_cases hr1 : (processFiles deps (classifyFiles deps.computeHash currentFiles
      (jsMapOfList existingHashes)).1 nextId).1 = false
  · rw [syncDocumentsCore_eq_fail hr1] at hsucc
    simp at hsucc
  · have hr1' : (processFiles deps (classifyFiles deps.computeHash currentFiles
        (jsMapOfList existingHashes)).1 nextId).1 = true := by
      cases h2 : (processFiles deps (classifyFiles deps.computeHash currentFiles
          (jsMapOfList existingHashes)).1 nextId).1
      · exact absurd h2 hr1
      · rfl
    have haddsnodup : ((classifyFiles deps.computeHash currentFiles
        (jsMapOfList existingHashes)).1.map fun g => g.fileName).Nodup := by
      obtain ⟨ea, eu, hea, heu, hsa, hsu⟩ := classify_foldl_prefix deps.computeHash
        currentFiles [] [] (jsMapOfList existingHashes)
      rw [hcf] at hea
      rw [hea]
      simpa using hnodup.sublist (hsa.map fun g => g.fileName)
    obtain ⟨firstId, t1, t2, htr, ht1, ht2⟩ := processFiles_block deps
      (classifyFiles deps.computeHash currentFiles (jsMapOfList existingHashes)).1 nextId f
      haddsnodup hC1 hchunks hr1'
    rw [syncDocumentsCore_eq_ok hr1]
    refine ⟨firstId,
      ((if reset then [StoreCall.vectorReset, StoreCall.parentDeleteAll] else []) ++
        [StoreCall.getAllSourceFileHashes] ++
        (((classifyFiles deps.computeHash currentFiles
            (jsMapOfList existingHashes)).2.2.map Prod.fst).flatMap fun s =>
          [StoreCall.deleteBySourceFile s, StoreCall.vectorDeleteDocuments s])) ++ t1,
      t2 ++ ((classifyFiles deps.computeHash currentFiles
          (jsMapOfList existingHashes)).2.1.flatMap fun g =>
        [StoreCall.deleteBySourceFile g.fileName,
          StoreCall.vectorDeleteDocuments g.fileName]) ++
        (processFiles deps (classifyFiles deps.computeHash currentFiles
            (jsMapOfList existingHashes)).2.1
          (processFiles deps (classifyFiles deps.computeHash currentFiles
            (jsMapOfList existingHashes)).1 nextId).2.2).2.1,
      ?_, ?_, ?_, ?_⟩
    · rw [htr]
      simp [List.append_assoc]
    · intro e he
      rcases List.mem_append.mp he with he | he
      · rcases List.mem_append.mp he with he | he
        rcases List.mem_append.mp he with he | he
        · exact resetTrace_not_mentions e he
        · simp only [List.mem_singleton] at he
          subst he
          exact id
        · exact pairTrace_not_mentions hC3 e he
      · exact ht1 e he
    · intro e he
      rcases List.mem_append.mp he with he | he
      · rcases List.mem_append.mp he with he | he
        · exact ht2 e he
        · rw [updates_pairTrace_eq] at he
          exact pairTrace_not_mentions hC2 e he
      · exact processFiles_not_mentions deps _ _ _ hC2 e he
    · intro d hd
      unfold childDocsFor at hd
      obtain ⟨jc, hjc, hd2⟩ := List.mem_flatMap.mp hd
      obtain ⟨kc, hkc, rfl⟩ := List.mem_map.mp hd2
      refine ⟨rfl, ?_⟩
      unfold assignedIds
      exact List.mem_map_of_mem (fun j : ℕ => firstId + (j : ℤ))
        (List.mem_range.mpr (mem_enum_fst_lt hjc))

/-- Every embedBatch event of a processFiles trace is immediately preceded by
the insertParents event of the same file, and the embedded texts are exactly
the documents of the child records built from that file's assigned first
parent identity. -/
theorem processFiles_embed_after_insert (deps : SyncDeps) :
    ∀ (files : List SyncFile) (nextId : ℤ) (pre : List StoreCall)
      (texts : List (List Char)) (post : List StoreCall),
      (processFiles deps files nextId).2.1 =
        pre ++ StoreCall.embedBatch texts :: post →
      ∃ (pre0 : List StoreCall) (f : SyncFile) (firstId : ℤ),
        f ∈ files ∧
        pre = pre0 ++ [StoreCall.insertParents
          (parentRecordsFor deps f (deps.chunk f.content))
          (assignedIds firstId (deps.chunk f.content).length)] ∧
        texts = (childDocsFor deps f (deps.chunk f.content) firstId).map
          fun d => d.document := by
  intro files
  induction files with
  | nil =>
    intro nextId pre texts post h
    simp [processFiles] at h
  | cons g rest ih =>
    intro nextId pre texts post h
    by_cases h0 : (deps.chunk g.content).length = 0
    · rw [processFiles_cons_skip h0] at h
      obtain ⟨pre0, f, firstId, hf, hpre, htexts⟩ := ih _ _ _ _ h
      exact ⟨pre0, f, firstId, List.mem_cons_of_mem _ hf, hpre, htexts⟩
    · by_cases h1 : deps.embedOk ((childDocsFor deps g (deps.chunk g.content) nextId).map
          fun d => d.document) = false
      · have htr : (processFiles deps (g :: rest) nextId).2.1 =
            [StoreCall.insertParents (parentRecordsFor deps g (deps.chunk g.content))
                (assignedIds nextId (deps.chunk g.content).length),
              StoreCall.embedBatch ((childDocsFor deps g (deps.chunk g.content) nextId).map
                fun d => d.document)] := by
          rw [processFiles_cons_embedFail h0 h1]
        rw [htr] at h
        rcases pre with _ | ⟨a, _ | ⟨b, pre2⟩⟩
        · injection h with ha h2
          simp at ha
        · injection h with ha h2
          injection h2 with hb h3
          injection hb with hT
          subst ha
          subst hT
          exact ⟨[], g, nextId, List.mem_cons_self g rest, rfl, rfl⟩
        · injection h with ha h2
          injection h2 with hb h3
          exact absurd h3.symm (by simp)
      · by_cases h2 : deps.upsertOk (childDocsFor deps g (deps.chunk g.content) nextId) = false
        · have htr : (processFiles deps (g :: rest) nextId).2.1 =
              [StoreCall.insertParents (parentRecordsFor deps g (deps.chunk g.content))
                  (assignedIds nextId (deps.chunk g.content).length),
                StoreCall.embedBatch ((childDocsFor deps g (deps.chunk g.content) nextId).map
                  fun d => d.document),
                StoreCall.addDocuments (childDocsFor deps g (deps.chunk g.content) nextId)] := by
            rw [processFiles_cons_upsertFail h0 h1 h2]
          rw [htr] at h
          rcases pre with _ | ⟨a, _ | ⟨b, _ | ⟨c, pre3⟩⟩⟩
          · injection h with ha h3
            simp at ha
          · injection h with ha h3
            injection h3 with hb h4
            injection hb with hT
            subst ha
            subst hT
            exact ⟨[], g, nextId, List.mem_cons_self g rest, rfl, rfl⟩
          · injection h with ha h3
            injection h3 with hb h4
            injection h4 with hc h5
            simp at hc
          · injection h with ha h3
            injection h3 with hb h4
            injection h4 with hc h5
            exact absurd h5.symm (by simp)
        · have htr : (processFiles deps (g :: rest) nextId).2.1 =
              StoreCall.insertParents (parentRecordsFor deps g (deps.chunk g.content))
                  (assignedIds nextId (deps.chunk g.content).length) ::
                StoreCall.embedBatch ((childDocsFor deps g (deps.chunk g.content) nextId).map
                  fun d => d.document) ::
                StoreCall.addDocuments (childDocsFor deps g (deps.chunk g.content) nextId) ::
                (processFiles deps rest
                  (nextId + (deps.chunk g.content).length)).2.1 := by
            rw [processFiles_cons_ok h0 h1 h2]
          rw [htr] at h
          rcases pre with _ | ⟨a, _ | ⟨b, _ | ⟨c, pre3⟩⟩⟩
          · injection h with ha h3
            simp at ha
          · injection h with ha h3
            injection h3 with hb h4
            injection hb with hT
            subst ha
            subst hT
            exact ⟨[], g, nextId, List.mem_cons_self g rest, rfl, rfl⟩
          · injection h with ha h3
            injection h3 with hb h4
            injection h4 with hc h5
            simp at hc
          · injection h with ha h3
            injection h3 with hb h4
            injection h4 with hc h5
            obtain ⟨pre0, f, firstId, hf, hpre3, htexts⟩ := ih _ _ _ _ h5
            subst ha
            subst hb
            subst hc
            refine ⟨StoreCall.insertParents (parentRecordsFor deps g (deps.chunk g.content))
                  (assignedIds nextId (deps.chunk g.content).length) ::
                StoreCall.embedBatch ((childDocsFor deps g (deps.chunk g.content) nextId).map
                  fun d => d.document) ::
                StoreCall.addDocuments (childDocsFor deps g (deps.chunk g.content) nextId) ::
                pre0,
              f, firstId, List.mem_cons_of_mem _ hf, ?_, htexts⟩
            rw [hpre3]
            simp

/-- A failing processFiles run aborts right after the failing call: the trace
ends with the failing file's insertParents followed by the embedBatch that
reported failure, or by the embedBatch and the addDocuments upsert attempt
that reported failure.  In particular the failing file's parent rows were
inserted and no later event follows them. -/
theorem processFiles_fail_tail (deps : SyncDeps) :
    ∀ (files : List SyncFile) (nextId : ℤ),
      (processFiles deps files nextId).1 = false →
      ∃ (t : List StoreCall) (f : SyncFile) (firstId : ℤ),
        f ∈ files ∧ ¬(deps.chunk f.content).length = 0 ∧
        ((deps.embedOk ((childDocsFor deps f (deps.chunk f.content) firstId).map
            fun d => d.document) = false ∧
          (processFiles deps files nextId).2.1 =
            t ++ [StoreCall.insertParents (parentRecordsFor deps f (deps.chunk f.content))
                (assignedIds firstId (deps.chunk f.content).length),
              StoreCall.embedBatch ((childDocsFor deps f (deps.chunk f.content) firstId).map
                fun d => d.document)]) ∨
         (deps.upsertOk (childDocsFor deps f (deps.chunk f.content) firstId) = false ∧
          (processFiles deps files nextId).2.1 =
            t ++ [StoreCall.insertParents (parentRecordsFor deps f (deps.chunk f.content))
                (assignedIds firstId (deps.chunk f.content).length),
              StoreCall.embedBatch ((childDocsFor deps f (deps.chunk f.content) firstId).map
                fun d => d.document),
              StoreCall.addDocuments (childDocsFor deps f
                (deps.chunk f.content) firstId)])) := by
  intro files
  induction files with
  | nil =>
    intro nextId h
    simp [processFiles] at h
  | cons g rest ih =>
    intro nextId h
    by_cases h0 : (deps.chunk g.content).length = 0
    · rw [processFiles_cons_skip h0] at h ⊢
      obtain ⟨t, f, firstId, hf, hc, hor⟩ := ih _ h
      exact ⟨t, f, firstId, List.mem_cons_of_mem _ hf, hc, hor⟩
    · by_cases h1 : deps.embedOk ((childDocsFor deps g (deps.chunk g.content) nextId).map
          fun d => d.document) = false
      · refine ⟨[], g, nextId, List.mem_cons_self g rest, h0, Or.inl ⟨h1, ?_⟩⟩
        rw [processFiles_cons_embedFail h0 h1]
        rfl
      · by_cases h2 : deps.upsertOk (childDocsFor deps g (deps.chunk g.content) nextId) = false
        · refine ⟨[], g, nextId, List.mem_cons_self g rest, h0, Or.inr ⟨h2, ?_⟩⟩
          rw [processFiles_cons_upsertFail h0 h1 h2]
          rfl
        · have hfl : (processFiles deps rest
              (nextId + (deps.chunk g.content).length)).1 = false := by
            rw [processFiles_cons_ok h0 h1 h2] at h
            exact h
          obtain ⟨t, f, firstId, hf, hc, hor⟩ := ih _ hfl
          refine ⟨StoreCall.insertParents (parentRecordsFor deps g (deps.chunk g.content))
                (assignedIds nextId (deps.chunk g.content).length) ::
              StoreCall.embedBatch ((childDocsFor deps g (deps.chunk g.content) nextId).map
                fun d => d.document) ::
              StoreCall.addDocuments (childDocsFor deps g (deps.chunk g.content) nextId) ::
              t,
            f, firstId, List.mem_cons_of_mem _ hf, hc, ?_⟩
          rw [processFiles_cons_ok h0 h1 h2]
          rcases hor with ⟨hflag, htr⟩ | ⟨hflag, htr⟩
          · exact Or.inl ⟨hflag, by rw [htr]; simp⟩
          · exact Or.inr ⟨hflag, by rw [htr]; simp⟩

/-- C10: during sync file processing, a file's parent rows are always inserted
via insertParents before the batch embedding call for that file's children is
issued — every embedBatch event of a processFiles trace immediately follows
the insertParents event of the same file.  The trace contains no delete or
reset call of any kind, and when the run fails — the embedding call or the
subsequent child upsert reported failure — the trace ends with the failing
file's insertParents followed only by the failed embedding (and the failed
upsert attempt): the already-inserted parent rows are never rolled back, and
no child vectors of the failing file were successfully indexed after them. -/
theorem C10_parents_before_embed_no_rollback
    (deps : SyncDeps) (files : List SyncFile) (nextId : ℤ) :
    (∀ (pre : List StoreCall) (texts : List (List Char)) (post : List StoreCall),
      (processFiles deps files nextId).2.1 =
        pre ++ StoreCall.embedBatch texts :: post →
      ∃ (pre0 : List StoreCall) (f : SyncFile) (firstId : ℤ),
        f ∈ files ∧
        pre = pre0 ++ [StoreCall.insertParents
          (parentRecordsFor deps f (deps.chunk f.content))
          (assignedIds firstId (deps.chunk f.content).length)] ∧
        texts = (childDocsFor deps f (deps.chunk f.content) firstId).map
          fun d => d.document) ∧
    (∀ e ∈ (processFiles deps files nextId).2.1,
      (∀ s, ¬e = StoreCall.deleteBySourceFile s) ∧
      (∀ s, ¬e = StoreCall.vectorDeleteDocuments s) ∧
      ¬e = StoreCall.vectorReset ∧ ¬e = StoreCall.parentDeleteAll) ∧
    ((processFiles deps files nextId).1 = false →
      ∃ (t : List StoreCall) (f : SyncFile) (firstId : ℤ),
        f ∈ files ∧ ¬(deps.chunk f.content).length = 0 ∧
        ((deps.embedOk ((childDocsFor deps f (deps.chunk f.content) firstId).map
            fun d => d.document) = false ∧
          (processFiles deps files nextId).2.1 =
            t ++ [StoreCall.insertParents (parentRecordsFor deps f (deps.chunk f.content))
                (assignedIds firstId (deps.chunk f.content).length),
              StoreCall.embedBatch ((childDocsFor deps f (deps.chunk f.content) firstId).map
                fun d => d.document)]) ∨
         (deps.upsertOk (childDocsFor deps f (deps.chunk f.content) firstId) = false ∧
          (processFiles deps files nextId).2.1 =
            t ++ [StoreCall.insertParents (parentRecordsFor deps f (deps.chunk f.content))
                (assignedIds firstId (deps.chunk f.content).length),
              StoreCall.embedBatch ((childDocsFor deps f (deps.chunk f.content) firstId).map
                fun d => d.document),
              StoreCall.addDocuments (childDocsFor deps f
                (deps.chunk f.content) firstId)]))) := by
  refine ⟨fun pre texts post h =>
      processFiles_embed_after_insert deps files nextId pre texts post h,
    fun e he => ?_,
    fun hfail => processFiles_fail_tail deps files nextId hfail⟩
  rcases processFiles_events deps files nextId e he with
    ⟨r, a, rfl⟩ | ⟨t, rfl⟩ | ⟨d, rfl⟩
  · exact ⟨fun s => by simp, fun s => by simp, by simp, by simp⟩
  · exact ⟨fun s => by simp, fun s => by simp, by simp, by simp⟩
  · exact ⟨fun s => by simp, fun s => by simp, by simp, by simp⟩

def syncWitnessChunk (content : List Char) : List ParentChunkResult :=
  [{ text := content, children := [content] }]

def syncWitnessDeps : SyncDeps where
  chunk := syncWitnessChunk
  computeHash := fun content => "h" ++ String.mk content
  syncedAt := 7
  embedOk := fun _ => true
  upsertOk := fun _ => true

def syncFailDeps : SyncDeps where
  chunk := syncWitnessChunk
  computeHash := fun content => "h" ++ String.mk content
  syncedAt := 7
  embedOk := fun _ => false
  upsertOk := fun _ => true

def syncWitnessHashes : List (String × String) :=
  [("old.txt", "stale"), ("same.txt", "hs")]

def syncWitnessFiles : List SyncFile :=
  [⟨"new.txt", ['n']⟩, ⟨"old.txt", ['o']⟩, ⟨"same.txt", ['s']⟩]

def syncFailFiles : List SyncFile :=
  [⟨"a.txt", ['x']⟩]

/-- A concrete new file in a concrete sync run: the insert-then-embed-then-add
block of claim C3, with every hypothesis discharged by computation. -/
theorem C3_witness :
    ∃ (firstId : ℤ) (t1 t2 : List StoreCall),
      (syncDocumentsCore syncWitnessDeps syncWitnessHashes syncWitnessFiles false 1).2 =
        t1 ++ StoreCall.insertParents
            (parentRecordsFor syncWitnessDeps ⟨"new.txt", ['n']⟩
              (syncWitnessDeps.chunk ['n']))
            (assignedIds firstId (syncWitnessDeps.chunk ['n']).length) ::
          StoreCall.embedBatch ((childDocsFor syncWitnessDeps ⟨"new.txt", ['n']⟩
              (syncWitnessDeps.chunk ['n']) firstId).map fun d => d.document) ::
          StoreCall.addDocuments (childDocsFor syncWitnessDeps ⟨"new.txt", ['n']⟩
            (syncWitnessDeps.chunk ['n']) firstId) :: t2 ∧
      (∀ e ∈ t1, ¬e.mentionsFile "new.txt") ∧
      (∀ e ∈ t2, ¬e.mentionsFile "new.txt") ∧
      ∀ d ∈ childDocsFor syncWitnessDeps ⟨"new.txt", ['n']⟩
          (syncWitnessDeps.chunk ['n']) firstId,
        d.id = mkChildId "new.txt" d.metadata.parentId d.metadata.childIndex ∧
        d.metadata.parentId ∈ assignedIds firstId (syncWitnessDeps.chunk ['n']).length :=
  C3_add_inserts_parents_then_children syncWitnessDeps syncWitnessHashes
    syncWitnessFiles false 1 ⟨"new.txt", ['n']⟩ (by decide) (by decide)
    (Or.inl (by decide)) (by decide) (by decide)

/-- A concrete sync run holding one unchanged file, one changed file and one
new file: the unchanged file triggers no store call at all, and the changed
file's two deletes come before any re-insertion for it — claim C4 at a
computed input. -/
theorem C4_witness :
    (∀ e ∈ (syncDocumentsCore syncWitnessDeps syncWitnessHashes syncWitnessFiles
        false 1).2, ¬e.mentionsFile "same.txt") ∧
    ∃ pre post,
      (syncDocumentsCore syncWitnessDeps syncWitnessHashes syncWitnessFiles false 1).2 =
        pre ++ post ∧
      pre.count (StoreCall.deleteBySourceFile "old.txt") = 1 ∧
      pre.count (StoreCall.vectorDeleteDocuments "old.txt") = 1 ∧
      (∀ e ∈ pre, ¬e.isInsertionFor "old.txt") ∧
      (∀ e ∈ post, ¬(e = StoreCall.deleteBySourceFile "old.txt") ∧
        ¬(e = StoreCall.vectorDeleteDocuments "old.txt")) := by
  constructor
  · exact (C4_unchanged_skip_changed_delete_first syncWitnessDeps syncWitnessHashes
      syncWitnessFiles false 1 ⟨"same.txt", ['s']⟩ (by decide) (by decide)).1
      (by decide) (by decide)
  · exact (C4_unchanged_skip_changed_delete_first syncWitnessDeps syncWitnessHashes
      syncWitnessFiles false 1 ⟨"old.txt", ['o']⟩ (by decide) (by decide)).2
      "stale" (by decide) (by decide) (by decide) (by decide)

/-- A concrete failing run: the embedding call reports failure, and the trace
indeed ends with the file's insertParents followed by the failed embedBatch —
the inserted parents are not rolled back. -/
theorem C10_witness :
    ∃ (t : List StoreCall) (f : SyncFile) (firstId : ℤ),
      f ∈ syncFailFiles ∧ ¬(syncFailDeps.chunk f.content).length = 0 ∧
      ((syncFailDeps.embedOk ((childDocsFor syncFailDeps f
          (syncFailDeps.chunk f.content) firstId).map fun d => d.document) = false ∧
        (processFiles syncFailDeps syncFailFiles 1).2.1 =
          t ++ [StoreCall.insertParents
              (parentRecordsFor syncFailDeps f (syncFailDeps.chunk f.content))
              (assignedIds firstId (syncFailDeps.chunk f.content).length),
            StoreCall.embedBatch ((childDocsFor syncFailDeps f
              (syncFailDeps.chunk f.content) firstId).map fun d => d.document)]) ∨
       (syncFailDeps.upsertOk (childDocsFor syncFailDeps f
          (syncFailDeps.chunk f.content) firstId) = false ∧
        (processFiles syncFailDeps syncFailFiles 1).2.1 =
          t ++ [StoreCall.insertParents
              (parentRecordsFor syncFailDeps f (syncFailDeps.chunk f.content))
              (assignedIds firstId (syncFailDeps.chunk f.content).length),
            StoreCall.embedBatch ((childDocsFor syncFailDeps f
              (syncFailDeps.chunk f.content) firstId).map fun d => d.document),
            StoreCall.addDocuments (childDocsFor syncFailDeps f
              (syncFailDeps.chunk f.content) firstId)])) :=
  (C10_parents_before_embed_no_rollback syncFailDeps syncFailFiles 1).2.2 (by decide)

end CookingAssistant

